import Mathlib

/-!
# node-dump: the account export (`cmd/dump/main.go`, `ExportAccounts`)

A shallow embedding of `ExportAccounts` and a verification of its export
contract: asset totals, leaf order, proof assembly, hash text encoding and the
error paths.

Conventions of the embedding

* Go slices are lists, a Go `map[string]V` is an association list with unique
  keys (`mapAssign` overwrites an existing key), a Go `(value, error)` result is
  a pair of options, and a run-time index-out-of-range fault is the outcome
  `Outcome.outOfRange`.
* Functions of third-party packages that `ExportAccounts` calls
  (`sdk.Coins.AmountOf`, `sdk.AccAddress.String`, the hash function, the leaf
  serialisation, `wire.MarshalJSONIndent`) are the fields of `Lib`; the tree
  builder `mt.New` is a parameter of `ExportAccountsWith`.
-/

namespace NodeDump

/-! ## Data model -/

/-- One byte. -/
abbrev Byte := Fin 256

/-- A Go `[]byte`. -/
abbrev Bytes := List Byte

/-- The `sdk.Coin` of the ledger: a denomination and an amount (an `int64`
value). -/
structure Coin where
  Denom : String
  Amount : Int
deriving DecidableEq, Repr

/-- The `sdk.Coins` of the ledger: a slice of coins. -/
abbrev Coins := List Coin

/-- What `ExportAccounts` reads of an `sdk.Account`: `GetAddress`,
`GetAccountNumber`, `GetCoins`. -/
structure Account where
  Address : Bytes
  AccountNumber : Int
  Coins : Coins
deriving DecidableEq, Repr

/-- The record `types.ExportedAccount` built at lines 49-53. -/
structure ExportedAccount where
  Address : Bytes
  AccountNumber : Int
  Coins : Coins
deriving DecidableEq, Repr

/-- Errors that cross `ExportAccounts`. -/
inductive Error where
  | emptyTree
  | encoding
  | hashMismatch
  | other (code : Nat)
deriving DecidableEq, Repr

/-- A Go `map[string]V`: an association list with unique keys. -/
abbrev GoMap (V : Type) := List (String × V)

/-- The Go read `v, ok := m[k]`. -/
def mapLookup {V : Type} : GoMap V → String → Option V
  | [], _ => none
  | (k', v) :: rest, k => if k' = k then some v else mapLookup rest k

/-- The Go write `m[k] = v`: overwrite the entry of `k`, or add one. -/
def mapAssign {V : Type} : GoMap V → String → V → GoMap V
  | [], k, v => [(k, v)]
  | (k', v') :: rest, k, v =>
    if k' = k then (k, v) :: rest else (k', v') :: mapAssign rest k v

/-- The Go read `m[k]` of an integer map: the zero value when `k` is absent. -/
def mapIndex (m : GoMap Int) (k : String) : Int := (mapLookup m k).getD 0

/-- The Go `len(m)`. -/
def mapLen {V : Type} (m : GoMap V) : Nat := m.length

/-- The keys of a map. -/
def mapKeys {V : Type} (m : GoMap V) : List String := m.map Prod.fst

/-- The `sdk.CommitID` of the last commit. -/
structure CommitID where
  Version : Int
  Hash : Bytes
deriving DecidableEq, Repr

/-- The record `types.ExportedAccountState` built at lines 88-96. -/
structure ExportedAccountState where
  ChainID : String
  BlockHeight : Int
  CommitID : CommitID
  Accounts : List ExportedAccount
  Assets : GoMap Int
  StateRoot : String
  Proofs : GoMap (List String)
deriving DecidableEq, Repr

/-- The `mt.Config` of the tree builder. -/
structure Config where
  RunInParallel : Bool
  NumRoutines : Nat
  SortSiblingPairs : Bool
deriving DecidableEq, Repr

/-- A `mt.Proof`: the sibling hashes of one leaf, bottom level first. -/
structure Proof where
  Siblings : List Bytes
deriving DecidableEq, Repr

/-- What `ExportAccounts` reads of a `mt.MerkleTree`. -/
structure MerkleTree where
  Root : Bytes
  Proofs : List Proof
deriving DecidableEq, Repr

/-- The third-party functions `ExportAccounts` calls. -/
structure Lib where
  /-- `sdk.Coins.AmountOf`. -/
  AmountOf : Coins → String → Int
  /-- `sdk.AccAddress.String`. -/
  addrString : Bytes → String
  /-- The hash function of the tree. -/
  hashFunc : Bytes → Bytes
  /-- The byte encoding of one account record. -/
  encode : ExportedAccount → Bytes
  /-- The hash that fills the leaf level up to a power of two. -/
  padLeaf : List Bytes → Bytes
  /-- `wire.MarshalJSONIndent` on the application codec. -/
  marshal : ExportedAccountState → Except Error Bytes

/-- What `ExportAccounts` reads of the application: the accounts the keeper
yields, in the order it yields them, and the metadata. -/
structure App where
  store : List Account
  ChainID : String
  LastBlockHeight : Int
  LastCommitID : CommitID

/-- The result of running Go code that may hit an index out of range. -/
inductive Outcome (α : Type) where
  | returned (a : α)
  | outOfRange
deriving DecidableEq, Repr

/-! ## The account iteration (lines 40-65) -/

/-- The variables the closure `appendAccount` captures. -/
structure IterState where
  accounts : List ExportedAccount
  mtData : List ExportedAccount
  assets : GoMap Int
  err : Option Error
deriving DecidableEq, Repr

/-- The value a Go `int64` holds after an operation whose exact result is `x`:
`x` reduced modulo `2 ^ 64` into the signed range. The amounts of the ledger
and the asset totals are `int64`, the operand type of `+=` at line 47. -/
def wrapInt64 (x : Int) : Int := (x + 2 ^ 63) % 2 ^ 64 - 2 ^ 63

/-- Lines 46-48: `for _, coin := range coins { assets[coin.Denom] +=
coins.AmountOf(coin.Denom) }`, with the `int64` addition of Go. -/
def addCoins (L : Lib) (coins : Coins) (assets : GoMap Int) : GoMap Int :=
  coins.foldl
    (fun m coin =>
      mapAssign m coin.Denom (wrapInt64 (mapIndex m coin.Denom + L.AmountOf coins coin.Denom)))
    assets

/-- The closure `appendAccount` (lines 43-63): the new captured state and the
`stop` flag it returns. -/
def appendAccount (L : Lib) (s : IterState) (acc : Account) : IterState × Bool :=
  let addr := acc.Address
  let coins := acc.Coins
  let assets := addCoins L coins s.assets
  let account : ExportedAccount :=
    { Address := addr, AccountNumber := acc.AccountNumber, Coins := acc.Coins }
  let s1 : IterState :=
    { accounts := s.accounts ++ [account], mtData := s.mtData ++ [account],
      assets := assets, err := s.err }
  if s1.err.isSome then (s1, true) else (s1, false)

/-- The keeper's `IterateAccounts`: call `process` on each account in store
order until it returns `true`. -/
def IterateAccounts {σ : Type} (process : σ → Account → σ × Bool) : List Account → σ → σ
  | [], s => s
  | acc :: rest, s =>
    if (process s acc).2 then (process s acc).1
    else IterateAccounts process rest (process s acc).1

/-- The captured variables before the iteration (lines 40-42; `err` is the
named result, still nil). -/
def initState : IterState := { accounts := [], mtData := [], assets := [], err := none }

/-- The captured variables after line 65. -/
def collect (L : Lib) (store : List Account) : IterState :=
  IterateAccounts (appendAccount L) store initState

/-- The record of one account (lines 49-53). -/
def toExported (acc : Account) : ExportedAccount :=
  { Address := acc.Address, AccountNumber := acc.AccountNumber, Coins := acc.Coins }

/-! ## Hash text encoding (lines 83 and 94) -/

/-- The digit table of the hexadecimal encoder. -/
def hextable : List Char := "0123456789abcdef".data

/-- The digit of one nibble: `hextable[n]`. -/
def hexDigit (n : Nat) : Char := hextable.getD n '0'

/-- The digits of a byte string: for each byte `v`, `hextable[v>>4]` then
`hextable[v&0x0f]`. -/
def hexChars : Bytes → List Char
  | [] => []
  | v :: rest => hexDigit (v.val / 16) :: hexDigit (v.val % 16) :: hexChars rest

/-- Modelled from the spec: `common.Bytes2Hex` is a function of the go-ethereum
package, absent from the sources; by the spec a hash is written as lowercase
hexadecimal, two digits per byte in byte order. -/
def Bytes2Hex (b : Bytes) : String := String.mk (hexChars b)

/-- The expression `"0x" + common.Bytes2Hex(h)` of lines 83 and 94. -/
def hexString (h : Bytes) : String := "0x" ++ Bytes2Hex h

/-- The value of one lowercase hexadecimal digit. -/
def unhex (c : Char) : Option Nat :=
  if 48 ≤ c.toNat ∧ c.toNat ≤ 57 then some (c.toNat - 48)
  else if 97 ≤ c.toNat ∧ c.toNat ≤ 102 then some (c.toNat - 87)
  else none

/-- Decoding of a digit string, two digits per byte. -/
def decodeHex : List Char → Option Bytes
  | [] => some []
  | [_] => none
  | hi :: lo :: rest =>
    match unhex hi, unhex lo, decodeHex rest with
    | some h, some l, some bs => some (⟨(h * 16 + l) % 256, Nat.mod_lt _ (by decide)⟩ :: bs)
    | _, _, _ => none

/-- Decoding of a hash string: the two characters `0x`, then the digits. -/
def decodeHexString (s : String) : Option Bytes :=
  match s.data with
  | '0' :: 'x' :: digits => decodeHex digits
  | _ => none

/-- A lowercase hexadecimal digit. -/
def isLowerHex (c : Char) : Bool := hextable.contains c

/-! ## The tree builder, from the spec (section 4.2) -/

/-- The byte-wise order of two hashes: `a` sorts strictly before `b`. -/
def bytesLess : Bytes → Bytes → Bool
  | [], [] => false
  | [], _ :: _ => true
  | _ :: _, [] => false
  | a :: as, b :: bs => if a < b then true else if b < a then false else bytesLess as bs

/-- Modelled from the spec: the parent of two nodes (section 4.2 step 5); the
tree builder is the third-party package go-merkletree, absent from the
sources. With `SortSiblingPairs` the pair is sorted by byte value before
concatenation and hashing. -/
def combine (L : Lib) (cfg : Config) (a b : Bytes) : Bytes :=
  if cfg.SortSiblingPairs then
    (if bytesLess b a then L.hashFunc (b ++ a) else L.hashFunc (a ++ b))
  else L.hashFunc (a ++ b)

/-- Modelled from the spec: the Leaf Encoder (section 4.1), whose code
(`ExportedAccount.Serialize`, package `types`) is absent from the sources: it
fails with an encoding error if a coin amount is negative or a denomination
is empty. -/
def LeafEncoder (L : Lib) (a : ExportedAccount) : Except Error Bytes :=
  if a.Coins.any (fun c => decide (c.Amount < 0) || decide (c.Denom = "")) then
    Except.error Error.encoding
  else Except.ok (L.encode a)

/-- Modelled from the spec: the leaf hashes (section 4.2 step 1), each the
hash of one encoded record, in input order. -/
def leafHashes (L : Lib) : List ExportedAccount → Except Error (List Bytes)
  | [] => Except.ok []
  | a :: rest =>
    match LeafEncoder L a with
    | Except.error e => Except.error e
    | Except.ok bs =>
      match leafHashes L rest with
      | Except.error e => Except.error e
      | Except.ok hs => Except.ok (L.hashFunc bs :: hs)

/-- The least `k` with `n ≤ 2 ^ k`. -/
def ceilLog2 (n : Nat) : Nat := ((List.range (n + 1)).find? (fun k => decide (n ≤ 2 ^ k))).getD n

/-- Modelled from the spec: the leaf level filled up to the next power of two
(section 4.2 step 4) with the padding hash of the library. -/
def padLevel (L : Lib) (hs : List Bytes) : List Bytes :=
  hs ++ List.replicate (2 ^ ceilLog2 hs.length - hs.length) (L.padLeaf hs)

/-- Modelled from the spec: one level up (section 4.2 step 5): adjacent pairs
are combined. -/
def levelUp (L : Lib) (cfg : Config) : List Bytes → List Bytes
  | a :: b :: rest => combine L cfg a b :: levelUp L cfg rest
  | [a] => [a]
  | [] => []

/-- The level `d` steps above a level. -/
def climb (L : Lib) (cfg : Config) : Nat → List Bytes → List Bytes
  | 0, lv => lv
  | d + 1, lv => climb L cfg d (levelUp L cfg lv)

/-- The position of the sibling of position `i` in its pair. -/
def siblingIndex (i : Nat) : Nat := if i % 2 = 0 then i + 1 else i - 1

/-- Modelled from the spec: the sibling hashes met while ascending `d` levels
from position `i` (section 4.2 step 7), bottom level first. -/
def siblingPath (L : Lib) (cfg : Config) : Nat → List Bytes → Nat → List Bytes
  | 0, _, _ => []
  | d + 1, lv, i => lv.getD (siblingIndex i) [] :: siblingPath L cfg d (levelUp L cfg lv) (i / 2)

/-- Modelled from the spec: the Tree Builder (section 4.2), the third-party
package go-merkletree, absent from the sources. Empty input fails with the
empty-tree error; one leaf is its own root with an empty proof; otherwise the
leaf level is padded to a power of two and the levels are built bottom-up.
The worker count does not enter the result (section 5); the optional
consistency check of the spec is not performed. -/
def TreeBuilder (L : Lib) (cfg : Config) (blocks : List ExportedAccount) :
    Except Error MerkleTree :=
  match leafHashes L blocks with
  | Except.error e => Except.error e
  | Except.ok [] => Except.error Error.emptyTree
  | Except.ok [h] => Except.ok { Root := h, Proofs := [{ Siblings := [] }] }
  | Except.ok hs =>
    let d := ceilLog2 hs.length
    let padded := padLevel L hs
    Except.ok
      { Root := (climb L cfg d padded).headD [],
        Proofs := (List.range hs.length).map (fun i => { Siblings := siblingPath L cfg d padded i }) }

/-- Modelled from the spec: proof verification (section 4.3): fold the
siblings into the leaf hash under the pair rule of the tree. -/
def verifyFold (L : Lib) (cfg : Config) (leafHash : Bytes) (siblings : List Bytes) : Bytes :=
  siblings.foldl (combine L cfg) leafHash

/-! ## Proof assembly and the snapshot (lines 66-102) -/

/-- The inner loop of lines 82-84, started at index `j` with `k` iterations
left: `nProof = append(nProof, "0x"+common.Bytes2Hex(proof.Siblings[j]))`. -/
def siblingLoop (sibs : List Bytes) : Nat → Nat → List String → Outcome (List String)
  | 0, _, nProof => Outcome.returned nProof
  | k + 1, j, nProof =>
    match sibs[j]? with
    | none => Outcome.outOfRange
    | some h => siblingLoop sibs k (j + 1) (nProof ++ [hexString h])

/-- The outer loop of lines 79-86, started at index `i` with `k` iterations
left: read `proofs[i]`, encode its siblings, store them under
`accounts[i].Address.String()`. -/
def proofLoop (L : Lib) (proofs : List Proof) (accounts : List ExportedAccount) :
    Nat → Nat → GoMap (List String) → Outcome (GoMap (List String))
  | 0, _, m => Outcome.returned m
  | k + 1, i, m =>
    match proofs[i]? with
    | none => Outcome.outOfRange
    | some proof =>
      match siblingLoop proof.Siblings proof.Siblings.length 0 [] with
      | Outcome.outOfRange => Outcome.outOfRange
      | Outcome.returned nProof =>
        match accounts[i]? with
        | none => Outcome.outOfRange
        | some a => proofLoop L proofs accounts k (i + 1) (mapAssign m (L.addrString a.Address) nProof)

/-- The tree configuration of lines 67-71. -/
def exportConfig : Config := { RunInParallel := true, NumRoutines := 4, SortSiblingPairs := true }

/-- Lines 37-96 of `ExportAccounts`, for a tree builder `mtNew`: the error of
the tree builder, or the snapshot record handed to the marshaller. -/
def genStateOf (L : Lib) (mtNew : Config → List ExportedAccount → Except Error MerkleTree)
    (app : App) : Outcome (Except Error ExportedAccountState) :=
  let s := collect L app.store
  match mtNew exportConfig s.mtData with
  | Except.error e => Outcome.returned (Except.error e)
  | Except.ok tree =>
    match proofLoop L tree.Proofs s.accounts s.mtData.length 0 [] with
    | Outcome.outOfRange => Outcome.outOfRange
    | Outcome.returned exportedProof =>
      Outcome.returned (Except.ok
        { ChainID := app.ChainID
          BlockHeight := app.LastBlockHeight
          CommitID := app.LastCommitID
          Accounts := s.accounts
          Assets := s.assets
          StateRoot := hexString tree.Root
          Proofs := exportedProof })

/-- The function `ExportAccounts` for a tree builder `mtNew`: the pair
`(appState, err)` it returns. -/
def ExportAccountsWith (L : Lib) (mtNew : Config → List ExportedAccount → Except Error MerkleTree)
    (app : App) : Outcome (Option Bytes × Option Error) :=
  match genStateOf L mtNew app with
  | Outcome.outOfRange => Outcome.outOfRange
  | Outcome.returned (Except.error e) => Outcome.returned (none, some e)
  | Outcome.returned (Except.ok genState) =>
    match L.marshal genState with
    | Except.error e => Outcome.returned (none, some e)
    | Except.ok bz => Outcome.returned (some bz, none)

/-- The function `ExportAccounts` over the tree builder of the spec. -/
def ExportAccounts (L : Lib) (app : App) : Outcome (Option Bytes × Option Error) :=
  ExportAccountsWith L (TreeBuilder L) app

/-- The snapshot record `ExportAccounts` hands to the marshaller, over the
tree builder of the spec. -/
def exportedState (L : Lib) (app : App) : Outcome (Except Error ExportedAccountState) :=
  genStateOf L (TreeBuilder L) app

/-! ## A reference library, for concrete runs -/

/-- The Go order `a < b` of two strings, character by character. -/
def charsLess : List Char → List Char → Bool
  | [], [] => false
  | [], _ :: _ => true
  | _ :: _, [] => false
  | a :: as, b :: bs =>
    if a.toNat < b.toNat then true else if b.toNat < a.toNat then false else charsLess as bs

/-- The amount lookup of the reference library: the binary search of the
ledger's `Coins.AmountOf` over a coin slice sorted by denomination, with the
slice length as recursion bound. -/
def sdkAmountOf : Nat → Coins → String → Int
  | 0, _, _ => 0
  | fuel + 1, coins, denom =>
    match coins with
    | [] => 0
    | [coin] => if coin.Denom = denom then coin.Amount else 0
    | _ =>
      match coins[coins.length / 2]? with
      | none => 0
      | some coin =>
        if charsLess denom.data coin.Denom.data then sdkAmountOf fuel (coins.take (coins.length / 2)) denom
        else if denom = coin.Denom then coin.Amount
        else sdkAmountOf fuel (coins.drop (coins.length / 2 + 1)) denom

/-- A small deterministic stand-in for the hash function: one byte. -/
def toyHash (bs : Bytes) : Bytes :=
  [Fin.ofNat (bs.foldl (fun acc b => (acc * 31 + b.val + 7) % 251) 0)]

/-- A reference library: binary-search amounts, hexadecimal address text, a
one-byte hash, a plain record encoding, padding by the last leaf hash. -/
def refLib : Lib where
  AmountOf := fun coins denom => sdkAmountOf coins.length coins denom
  addrString := fun addr => hexString addr
  hashFunc := toyHash
  encode := fun a =>
    a.Address ++ [Fin.ofNat a.AccountNumber.toNat] ++ a.Coins.map (fun c => Fin.ofNat c.Amount.toNat)
  padLeaf := fun hs => hs.getLastD []
  marshal := fun genState => Except.ok (genState.StateRoot.data.map (fun c => Fin.ofNat c.toNat))

/-- An application around a store, with fixed metadata. -/
def appOf (store : List Account) : App :=
  { store := store, ChainID := "chain", LastBlockHeight := 7, LastCommitID := { Version := 7, Hash := [] } }

/-- Two accounts, as in the worked example of the spec. -/
def twoStore : List Account :=
  [ { Address := [0xAA], AccountNumber := 1, Coins := [{ Denom := "ATOM", Amount := 10 }] },
    { Address := [0xBB], AccountNumber := 2, Coins := [{ Denom := "ATOM", Amount := 5 }] } ]

/-- Three accounts. -/
def threeStore : List Account :=
  twoStore ++ [{ Address := [0xCC], AccountNumber := 3,
                 Coins := [{ Denom := "ATOM", Amount := 1 }, { Denom := "BNB", Amount := 4 }] }]

/-- One account whose coin slice lists a denomination twice. -/
def dupStore : List Account :=
  [ { Address := [0xAA], AccountNumber := 1,
      Coins := [{ Denom := "ATOM", Amount := 1 }, { Denom := "ATOM", Amount := 2 }] } ]

/-- Three accounts, the first and the last under one address. -/
def sharedAddrStore : List Account :=
  twoStore ++ [{ Address := [0xAA], AccountNumber := 3, Coins := [{ Denom := "BNB", Amount := 4 }] }]

/-- A tree builder that returns a tree without proofs. -/
def noProofBuilder (_ : Config) (_ : List ExportedAccount) : Except Error MerkleTree :=
  Except.ok { Root := [], Proofs := [] }

/-- A tree builder that always fails. -/
def failingBuilder (_ : Config) (_ : List ExportedAccount) : Except Error MerkleTree :=
  Except.error (Error.other 1)

/-- The reference library with a marshaller that always fails. -/
def failingMarshalLib : Lib := { refLib with marshal := fun _ => Except.error (Error.other 2) }

/-- Two accounts that each hold `2 ^ 62` of one denomination. -/
def bigStore : List Account :=
  [ { Address := [0xAA], AccountNumber := 1, Coins := [{ Denom := "ATOM", Amount := 2 ^ 62 }] },
    { Address := [0xBB], AccountNumber := 2, Coins := [{ Denom := "ATOM", Amount := 2 ^ 62 }] } ]

/-- The first account of the worked example, alone. -/
def oneStore : List Account := twoStore.take 1

/-- One account that holds a coin with an empty denomination. -/
def emptyDenomStore : List Account :=
  [ { Address := [0xAA], AccountNumber := 1, Coins := [{ Denom := "", Amount := 1 }] } ]

/-- One account that holds a negative amount. -/
def negativeStore : List Account :=
  [ { Address := [0xAA], AccountNumber := 1, Coins := [{ Denom := "ATOM", Amount := -1 }] } ]

/-- A tree builder that requires more than one data block and otherwise is
the tree builder of the spec. -/
def strictBuilder (L : Lib) (cfg : Config) (blocks : List ExportedAccount) :
    Except Error MerkleTree :=
  if blocks.length ≤ 1 then Except.error (Error.other 3) else TreeBuilder L cfg blocks

/-- Decoding of the strings of an exported proof, in order. -/
def decodeAll : List String → Option (List Bytes)
  | [] => some []
  | s :: rest =>
    match decodeHexString s, decodeAll rest with
    | some h, some hs => some (h :: hs)
    | _, _ => none

/-- Modelled from the spec: verification of an exported proof (section 4.3)
against the exported state root: decode the sibling texts and the root text,
fold the siblings into the leaf hash under the pair rule of the tree, and
succeed only if the result is the root. -/
def verifyExported (L : Lib) (cfg : Config) (leafHash : Bytes) (proof : List String)
    (stateRoot : String) : Bool :=
  match decodeAll proof, decodeHexString stateRoot with
  | some siblings, some root => decide (verifyFold L cfg leafHash siblings = root)
  | _, _ => false

/-- The amount of denomination `d` listed in a coin slice: the sum of the
entries of `d`, zero when there is none. -/
def amountHeld (coins : Coins) (d : String) : Int :=
  ((coins.filter (fun c => decide (c.Denom = d))).map Coin.Amount).sum

/-- The sum, over all accounts, of the amount of `d` the account holds. -/
def totalHeld (store : List Account) (d : String) : Int :=
  (store.map (fun a => amountHeld a.Coins d)).sum

/-- The writes of the loop of lines 79-86, in order: at step `i` the key is
the address text of account `i` and the value the encoded siblings of proof
`i`. -/
def proofEntries (L : Lib) (proofs : List Proof) (accounts : List ExportedAccount) :
    List (String × List String) :=
  List.zipWith (fun p a => (L.addrString a.Address, p.Siblings.map hexString)) proofs accounts

/-- A sequence of map writes, first to last. -/
def assignAll {V : Type} (m : GoMap V) (es : List (String × V)) : GoMap V :=
  es.foldl (fun m e => mapAssign m e.1 e.2) m

/-- The address text of each account, in store order. -/
def addrTexts (L : Lib) (store : List Account) : List String :=
  store.map (fun a => L.addrString a.Address)

/-! ## Maps -/

theorem mapLookup_mapAssign {V : Type} (m : GoMap V) (k d : String) (v : V) :
    mapLookup (mapAssign m k v) d = if k = d then some v else mapLookup m d := by
  induction m with
  | nil => simp [mapAssign, mapLookup]
  | cons p rest ih =>
    obtain ⟨k', v'⟩ := p
    by_cases hk : k' = k
    · subst hk
      by_cases hd : k' = d <;> simp [mapAssign, mapLookup, hd]
    · by_cases hd : k' = d
      · subst hd
        have : ¬ k = k' := fun h => hk h.symm
        simp [mapAssign, mapLookup, hk, this]
      · simp [mapAssign, mapLookup, hk, hd, ih]

theorem mapIndex_mapAssign (m : GoMap Int) (k d : String) (v : Int) :
    mapIndex (mapAssign m k v) d = if k = d then v else mapIndex m d := by
  unfold mapIndex
  rw [mapLookup_mapAssign]
  split <;> rfl

/-! ## The iteration -/

theorem appendAccount_fst (L : Lib) (s : IterState) (acc : Account) :
    (appendAccount L s acc).1 =
      { accounts := s.accounts ++ [toExported acc], mtData := s.mtData ++ [toExported acc],
        assets := addCoins L acc.Coins s.assets, err := s.err } := by
  unfold appendAccount toExported
  dsimp only
  split <;> rfl

theorem appendAccount_snd (L : Lib) (s : IterState) (acc : Account) :
    (appendAccount L s acc).2 = s.err.isSome := by
  unfold appendAccount
  dsimp only
  split
  · next h => simp [h]
  · next h => simpa using h

theorem iterate_appendAccount (L : Lib) (store : List Account) (s : IterState)
    (hs : s.err = none) :
    IterateAccounts (appendAccount L) store s =
      { accounts := s.accounts ++ store.map toExported,
        mtData := s.mtData ++ store.map toExported,
        assets := store.foldl (fun m a => addCoins L a.Coins m) s.assets,
        err := none } := by
  induction store generalizing s with
  | nil => cases s; simp_all [IterateAccounts]
  | cons acc rest ih =>
    have hstop : (appendAccount L s acc).2 = false := by rw [appendAccount_snd, hs]; rfl
    rw [IterateAccounts, hstop]
    simp only [Bool.false_eq_true, if_false]
    rw [ih _ (by rw [appendAccount_fst]; exact hs), appendAccount_fst]
    simp

theorem collect_eq (L : Lib) (store : List Account) :
    collect L store =
      { accounts := store.map toExported, mtData := store.map toExported,
        assets := store.foldl (fun m a => addCoins L a.Coins m) [], err := none } := by
  unfold collect
  rw [iterate_appendAccount L store initState rfl]
  simp [initState]

/-- What a returned snapshot record is made of. -/
theorem genStateOf_ok (L : Lib) (mtNew : Config → List ExportedAccount → Except Error MerkleTree)
    (app : App) (genState : ExportedAccountState)
    (h : genStateOf L mtNew app = Outcome.returned (Except.ok genState)) :
    ∃ tree exportedProof,
      mtNew exportConfig (app.store.map toExported) = Except.ok tree ∧
      proofLoop L tree.Proofs (app.store.map toExported) app.store.length 0 [] =
        Outcome.returned exportedProof ∧
      genState =
        { ChainID := app.ChainID, BlockHeight := app.LastBlockHeight, CommitID := app.LastCommitID,
          Accounts := app.store.map toExported,
          Assets := app.store.foldl (fun m a => addCoins L a.Coins m) [],
          StateRoot := hexString tree.Root, Proofs := exportedProof } := by
  unfold genStateOf at h
  rw [collect_eq] at h
  simp only [List.length_map] at h
  cases hm : mtNew exportConfig (app.store.map toExported) with
  | error e => rw [hm] at h; simp at h
  | ok tree =>
    rw [hm] at h
    dsimp only at h
    cases hp : proofLoop L tree.Proofs (app.store.map toExported) app.store.length 0 [] with
    | outOfRange => rw [hp] at h; simp at h
    | returned m =>
      rw [hp] at h
      simp only [Outcome.returned.injEq, Except.ok.injEq] at h
      exact ⟨tree, m, rfl, hp, h.symm⟩

/-! ## Asset totals -/

theorem wrapInt64_add (a b : Int) : wrapInt64 (wrapInt64 a + b) = wrapInt64 (a + b) := by
  unfold wrapInt64
  omega

theorem wrapInt64_idem (a : Int) : wrapInt64 (wrapInt64 a) = wrapInt64 a := by
  unfold wrapInt64
  omega

theorem wrapInt64_of_fits (a : Int) (hlo : -2 ^ 63 ≤ a) (hhi : a < 2 ^ 63) : wrapInt64 a = a := by
  unfold wrapInt64
  omega

theorem mapIndex_foldl_assign (g : Coin → Int) (cs : Coins) (m : GoMap Int) (d : String)
    (hm : wrapInt64 (mapIndex m d) = mapIndex m d) :
    mapIndex
        (cs.foldl (fun m coin => mapAssign m coin.Denom (wrapInt64 (mapIndex m coin.Denom + g coin))) m)
        d =
      wrapInt64 (mapIndex m d + ((cs.filter (fun c => decide (c.Denom = d))).map g).sum) := by
  induction cs generalizing m with
  | nil => simpa using hm.symm
  | cons c rest ih =>
    rw [List.foldl_cons]
    by_cases hd : c.Denom = d
    · rw [ih _ (by rw [mapIndex_mapAssign, if_pos hd, wrapInt64_idem]), mapIndex_mapAssign,
        if_pos hd, hd, wrapInt64_add]
      simp [hd, List.filter_cons, add_assoc]
    · rw [ih _ (by rw [mapIndex_mapAssign, if_neg hd]; exact hm), mapIndex_mapAssign, if_neg hd]
      simp [hd, List.filter_cons]

theorem mapIndex_addCoins (L : Lib) (coins : Coins) (m : GoMap Int) (d : String)
    (hm : wrapInt64 (mapIndex m d) = mapIndex m d) :
    mapIndex (addCoins L coins m) d =
      wrapInt64 (mapIndex m d +
        ((coins.filter (fun c => decide (c.Denom = d))).map (fun c => L.AmountOf coins c.Denom)).sum) := by
  unfold addCoins
  exact mapIndex_foldl_assign (fun c => L.AmountOf coins c.Denom) coins m d hm

theorem mapIndex_addCoins_valid (L : Lib) (coins : Coins) (m : GoMap Int) (d : String)
    (hm : wrapInt64 (mapIndex m d) = mapIndex m d)
    (h : ∀ c ∈ coins, L.AmountOf coins c.Denom = c.Amount) :
    mapIndex (addCoins L coins m) d = wrapInt64 (mapIndex m d + amountHeld coins d) := by
  rw [mapIndex_addCoins L coins m d hm, amountHeld]
  congr 3
  apply List.map_congr_left
  intro c hc
  exact h c (List.mem_of_mem_filter hc)

theorem mapIndex_assets_valid (L : Lib) (store : List Account) (m : GoMap Int) (d : String)
    (hm : wrapInt64 (mapIndex m d) = mapIndex m d)
    (h : ∀ a ∈ store, ∀ c ∈ a.Coins, L.AmountOf a.Coins c.Denom = c.Amount) :
    mapIndex (store.foldl (fun m a => addCoins L a.Coins m) m) d =
      wrapInt64 (mapIndex m d + totalHeld store d) := by
  induction store generalizing m with
  | nil => simpa [totalHeld] using hm.symm
  | cons a rest ih =>
    have ha := mapIndex_addCoins_valid L a.Coins m d hm (h a (List.mem_cons_self _ _))
    rw [List.foldl_cons, ih _ (by rw [ha, wrapInt64_idem]) (fun b hb => h b (List.mem_cons_of_mem _ hb)),
      ha, wrapInt64_add]
    simp [totalHeld, add_assoc]

/-- The exported total of a denomination is the sum over the accounts,
reduced to `int64`, when `AmountOf` returns each listed coin's amount. -/
theorem assets_wrapInt64 (L : Lib) (store : List Account) (d : String)
    (h : ∀ a ∈ store, ∀ c ∈ a.Coins, L.AmountOf a.Coins c.Denom = c.Amount) :
    mapIndex (collect L store).assets d = wrapInt64 (totalHeld store d) := by
  rw [collect_eq, mapIndex_assets_valid L store [] d rfl h]
  simp [mapIndex, mapLookup]

/-- For a coin slice that lists ATOM twice, the exported total is twice what
`AmountOf` reports, whatever the library: never the 3 the account lists. -/
theorem assets_dupStore (L : Lib) :
    mapIndex (collect L dupStore).assets "ATOM" ≠ totalHeld dupStore "ATOM" := by
  have h3 : totalHeld dupStore "ATOM" = 3 := by decide
  have h := mapIndex_addCoins L
    [{ Denom := "ATOM", Amount := 1 }, { Denom := "ATOM", Amount := 2 }] [] "ATOM" rfl
  rw [h3, collect_eq]
  simp only [dupStore, List.foldl_cons, List.foldl_nil]
  rw [h]
  simp only [mapIndex, mapLookup, Option.getD_none, decide_True, List.filter_cons_of_pos,
    List.filter_nil, List.map_cons, List.map_nil, List.sum_cons, List.sum_nil]
  unfold wrapInt64
  omega

/-- Claim C1, as stated, fails in two ways. For one account whose coin slice
lists ATOM twice (amounts 1 and 2), the loop of lines 46-48 adds
`AmountOf(ATOM)` once per listed entry, so the exported total of ATOM is 4,
while the account lists 3 and `AmountOf` reports 2. For two accounts that
hold `2 ^ 62` ATOM each, the `int64` total wraps to `-2 ^ 63`, while the sum
is `2 ^ 63`. -/
theorem c1_counterexample :
    (mapIndex (collect refLib dupStore).assets "ATOM" = 4 ∧
      totalHeld dupStore "ATOM" = 3 ∧
      (dupStore.map (fun a => refLib.AmountOf a.Coins "ATOM")).sum = 2) ∧
    (mapIndex (collect refLib bigStore).assets "ATOM" = -2 ^ 63 ∧
      totalHeld bigStore "ATOM" = 2 ^ 63) := by
  decide

/-- Claim C1, amended: when `AmountOf` returns, for every coin listed in a
yielded account, that coin's own amount (as it does on a well-formed coin
slice, where no denomination is listed twice), and the sum over all accounts
of the amount of `d` fits in `int64`, the exported `assets[d]` is exactly
that sum (an account that does not hold `d` contributes zero); the same
holds of the `Assets` field of every snapshot record. -/
theorem c1_asset_sum (L : Lib) (app : App) (d : String)
    (h : ∀ a ∈ app.store, ∀ c ∈ a.Coins, L.AmountOf a.Coins c.Denom = c.Amount)
    (hlo : -2 ^ 63 ≤ totalHeld app.store d) (hhi : totalHeld app.store d < 2 ^ 63) :
    mapIndex (collect L app.store).assets d = totalHeld app.store d ∧
      ∀ mtNew genState, genStateOf L mtNew app = Outcome.returned (Except.ok genState) →
        mapIndex genState.Assets d = totalHeld app.store d := by
  have key : mapIndex (app.store.foldl (fun m a => addCoins L a.Coins m) []) d =
      totalHeld app.store d := by
    rw [mapIndex_assets_valid L app.store [] d rfl h]
    simp only [mapIndex, mapLookup, Option.getD_none, zero_add]
    exact wrapInt64_of_fits _ hlo hhi
  refine ⟨by rw [collect_eq]; exact key, ?_⟩
  intro mtNew genState hg
  obtain ⟨tree, m, _, _, rfl⟩ := genStateOf_ok L mtNew app genState hg
  exact key

/-- Claim C1, amended, on three accounts of the reference library. -/
theorem c1_asset_sum_witness :
    mapIndex (collect refLib (appOf threeStore).store).assets "ATOM" = 16 ∧
      totalHeld (appOf threeStore).store "ATOM" = 16 ∧
      (mapIndex (collect refLib (appOf threeStore).store).assets "ATOM" =
          totalHeld (appOf threeStore).store "ATOM" ∧
        ∀ mtNew genState,
          genStateOf refLib mtNew (appOf threeStore) = Outcome.returned (Except.ok genState) →
            mapIndex genState.Assets "ATOM" = totalHeld (appOf threeStore).store "ATOM") :=
  ⟨by decide, by decide,
    c1_asset_sum refLib (appOf threeStore) "ATOM" (by decide) (by decide) (by decide)⟩

/-! ## Leaf order -/

/-- Claim C8: the exported accounts list and the data blocks handed to the
tree builder are both the records of the yielded accounts, one per account,
in store order (element `k` is the record of account `k`, with its address,
account number and coins); the callback returns `stop = false` at every
account; and the `Accounts` field of every snapshot record is that list. -/
theorem c8_leaf_order (L : Lib) (app : App) :
    (collect L app.store).accounts = app.store.map toExported ∧
      (collect L app.store).mtData = app.store.map toExported ∧
      (collect L app.store).accounts.length = app.store.length ∧
      (collect L app.store).mtData.length = app.store.length ∧
      (∀ k (hk : k < app.store.length),
        (collect L app.store).mtData[k]? = some (toExported (app.store.get ⟨k, hk⟩)) ∧
        (collect L app.store).accounts[k]? = some (toExported (app.store.get ⟨k, hk⟩)) ∧
        (appendAccount L (collect L (app.store.take k)) (app.store.get ⟨k, hk⟩)).2 = false) ∧
      (∀ mtNew genState, genStateOf L mtNew app = Outcome.returned (Except.ok genState) →
        genState.Accounts = app.store.map toExported ∧
          ∃ tree, mtNew exportConfig (app.store.map toExported) = Except.ok tree) ∧
      ∀ acc : Account,
        (toExported acc).Address = acc.Address ∧
        (toExported acc).AccountNumber = acc.AccountNumber ∧
        (toExported acc).Coins = acc.Coins := by
  refine ⟨by rw [collect_eq], by rw [collect_eq], by rw [collect_eq]; simp,
    by rw [collect_eq]; simp, ?_, ?_, fun _ => ⟨rfl, rfl, rfl⟩⟩
  · intro k hk
    rw [collect_eq, appendAccount_snd, collect_eq]
    simp [List.getElem?_map, List.getElem?_eq_getElem hk]
  · intro mtNew genState hg
    obtain ⟨tree, m, ht, _, rfl⟩ := genStateOf_ok L mtNew app genState hg
    exact ⟨rfl, tree, ht⟩

/-- Claim C8 on three accounts of the reference library. -/
theorem c8_leaf_order_witness :
    (collect refLib (appOf threeStore).store).mtData = threeStore.map toExported ∧
      (∃ genState, genStateOf refLib (TreeBuilder refLib) (appOf threeStore) =
        Outcome.returned (Except.ok genState)) ∧
      ∀ genState, genStateOf refLib (TreeBuilder refLib) (appOf threeStore) =
          Outcome.returned (Except.ok genState) →
        genState.Accounts = threeStore.map toExported :=
  ⟨(c8_leaf_order refLib (appOf threeStore)).2.1, ⟨_, rfl⟩,
    fun genState hg => ((c8_leaf_order refLib (appOf threeStore)).2.2.2.2.2.1 _ genState hg).1⟩

/-! ## Proof assembly -/

theorem siblingLoop_eq (sibs : List Bytes) (k j : Nat) (nProof : List String)
    (h : j + k = sibs.length) :
    siblingLoop sibs k j nProof = Outcome.returned (nProof ++ (sibs.drop j).map hexString) := by
  induction k generalizing j nProof with
  | zero =>
    have : sibs.drop j = [] := List.drop_eq_nil_of_le (by omega)
    simp [siblingLoop, this]
  | succ k ih =>
    have hj : j < sibs.length := by omega
    rw [siblingLoop, List.getElem?_eq_getElem hj]
    dsimp only
    rw [ih (j + 1) _ (by omega)]
    rw [List.drop_eq_getElem_cons hj]
    simp only [List.map_cons, List.append_assoc, List.singleton_append]

theorem siblingLoop_all (sibs : List Bytes) :
    siblingLoop sibs sibs.length 0 [] = Outcome.returned (sibs.map hexString) := by
  rw [siblingLoop_eq sibs sibs.length 0 [] (by omega)]
  simp

theorem proofEntries_getElem? (L : Lib) (proofs : List Proof) (accounts : List ExportedAccount)
    (i : Nat) (p : Proof) (a : ExportedAccount) (hp : proofs[i]? = some p)
    (ha : accounts[i]? = some a) :
    (proofEntries L proofs accounts)[i]? =
      some (L.addrString a.Address, p.Siblings.map hexString) := by
  unfold proofEntries
  rw [List.getElem?_zipWith, hp, ha]

theorem proofLoop_step (L : Lib) (proofs : List Proof) (accounts : List ExportedAccount)
    (k i : Nat) (m : GoMap (List String)) (p : Proof) (a : ExportedAccount)
    (hp : proofs[i]? = some p) (ha : accounts[i]? = some a) :
    proofLoop L proofs accounts (k + 1) i m =
      proofLoop L proofs accounts k (i + 1)
        (mapAssign m (L.addrString a.Address) (p.Siblings.map hexString)) := by
  rw [proofLoop, hp]
  dsimp only
  rw [siblingLoop_all]
  dsimp only
  rw [ha]

theorem proofLoop_eq (L : Lib) (proofs : List Proof) (accounts : List ExportedAccount)
    (k i : Nat) (m : GoMap (List String))
    (hp : i + k ≤ proofs.length) (ha : i + k ≤ accounts.length) :
    proofLoop L proofs accounts k i m =
      Outcome.returned (assignAll m (((proofEntries L proofs accounts).drop i).take k)) := by
  induction k generalizing i m with
  | zero => simp [proofLoop, assignAll]
  | succ k ih =>
    have hpi : i < proofs.length := by omega
    have hai : i < accounts.length := by omega
    rw [proofLoop_step L proofs accounts k i m _ _ (List.getElem?_eq_getElem hpi)
      (List.getElem?_eq_getElem hai), ih (i + 1) _ (by omega) (by omega)]
    have he := proofEntries_getElem? L proofs accounts i _ _ (List.getElem?_eq_getElem hpi)
      (List.getElem?_eq_getElem hai)
    have hlt : i < (proofEntries L proofs accounts).length := by
      by_contra hc
      rw [List.getElem?_eq_none (by omega)] at he
      exact Option.noConfusion he
    rw [List.getElem?_eq_getElem hlt] at he
    rw [List.drop_eq_getElem_cons hlt, List.take_succ_cons]
    simp only [Option.some.injEq] at he
    rw [he]
    rfl

theorem proofLoop_bound (L : Lib) (proofs : List Proof) (accounts : List ExportedAccount)
    (k i : Nat) (m m' : GoMap (List String))
    (h : proofLoop L proofs accounts k i m = Outcome.returned m') :
    k = 0 ∨ (i + k ≤ proofs.length ∧ i + k ≤ accounts.length) := by
  induction k generalizing i m with
  | zero => exact Or.inl rfl
  | succ k ih =>
    right
    cases hp : proofs[i]? with
    | none => rw [proofLoop, hp] at h; exact Outcome.noConfusion h
    | some p =>
      cases ha : accounts[i]? with
      | none =>
        rw [proofLoop, hp] at h
        dsimp only at h
        rw [siblingLoop_all] at h
        dsimp only at h
        rw [ha] at h
        exact Outcome.noConfusion h
      | some a =>
        rw [proofLoop_step L proofs accounts k i m p a hp ha] at h
        have hpi : i < proofs.length := by
          by_contra hc
          rw [List.getElem?_eq_none (by omega)] at hp
          exact Option.noConfusion hp
        have hai : i < accounts.length := by
          by_contra hc
          rw [List.getElem?_eq_none (by omega)] at ha
          exact Option.noConfusion ha
        rcases ih (i + 1) _ h with h0 | ⟨h1, h2⟩
        · subst h0; omega
        · omega

/-! ## Sequences of map writes -/

theorem mapKeys_mapAssign {V : Type} (m : GoMap V) (k : String) (v : V) :
    mapKeys (mapAssign m k v) = if k ∈ mapKeys m then mapKeys m else mapKeys m ++ [k] := by
  induction m with
  | nil => simp [mapAssign, mapKeys]
  | cons p rest ih =>
    obtain ⟨k', v'⟩ := p
    by_cases hk : k' = k
    · subst hk
      simp [mapAssign, mapKeys]
    · have hk2 : ¬ k = k' := fun h => hk h.symm
      unfold mapKeys at ih
      by_cases hmem : k ∈ List.map Prod.fst rest
      · simp [mapAssign, mapKeys, hk, hk2, hmem, ih]
      · simp [mapAssign, mapKeys, hk, hk2, hmem, ih]

theorem mapKeys_nodup_mapAssign {V : Type} (m : GoMap V) (k : String) (v : V)
    (h : (mapKeys m).Nodup) : (mapKeys (mapAssign m k v)).Nodup := by
  rw [mapKeys_mapAssign]
  split
  · exact h
  · next hk =>
    rw [List.nodup_append]
    refine ⟨h, List.nodup_singleton k, ?_⟩
    intro a ha hb
    rw [List.mem_singleton] at hb
    subst hb
    exact hk ha

theorem mapKeys_toFinset_mapAssign {V : Type} (m : GoMap V) (k : String) (v : V) :
    (mapKeys (mapAssign m k v)).toFinset = insert k (mapKeys m).toFinset := by
  rw [mapKeys_mapAssign]
  split
  · next hk => rw [Finset.insert_eq_of_mem (List.mem_toFinset.mpr hk)]
  · ext x
    simp [or_comm]

theorem assignAll_keys {V : Type} (es : List (String × V)) (m : GoMap V)
    (h : (mapKeys m).Nodup) :
    (mapKeys (assignAll m es)).Nodup ∧
      (mapKeys (assignAll m es)).toFinset = (mapKeys m).toFinset ∪ (es.map Prod.fst).toFinset := by
  induction es generalizing m with
  | nil => simp [assignAll, h]
  | cons e rest ih =>
    have := ih (mapAssign m e.1 e.2) (mapKeys_nodup_mapAssign m e.1 e.2 h)
    unfold assignAll at this ⊢
    rw [List.foldl_cons]
    refine ⟨this.1, ?_⟩
    rw [this.2, mapKeys_toFinset_mapAssign]
    ext x
    simp [or_assoc]

theorem mapLen_assignAll {V : Type} (es : List (String × V)) :
    mapLen (assignAll ([] : GoMap V) es) = (es.map Prod.fst).dedup.length := by
  have h := assignAll_keys es ([] : GoMap V) (by simp [mapKeys])
  have hlen : mapLen (assignAll ([] : GoMap V) es) = (mapKeys (assignAll ([] : GoMap V) es)).length := by
    simp [mapLen, mapKeys]
  rw [hlen, ← List.toFinset_card_of_nodup h.1, h.2, ← List.card_toFinset]
  simp [mapKeys]

theorem mapLookup_assignAll_absent {V : Type} (es : List (String × V)) (m : GoMap V) (k : String)
    (h : ∀ e ∈ es, e.1 ≠ k) : mapLookup (assignAll m es) k = mapLookup m k := by
  induction es generalizing m with
  | nil => rfl
  | cons e rest ih =>
    unfold assignAll at ih ⊢
    rw [List.foldl_cons, ih _ (fun e' he' => h e' (List.mem_cons_of_mem _ he')),
      mapLookup_mapAssign, if_neg (h e (List.mem_cons_self _ _))]

theorem mapLookup_assignAll_last {V : Type} (es : List (String × V)) (m : GoMap V) (i : Nat)
    (e : String × V) (hi : es[i]? = some e)
    (hlast : ∀ j e', i < j → es[j]? = some e' → e'.1 ≠ e.1) :
    mapLookup (assignAll m es) e.1 = some e.2 := by
  induction es generalizing m i with
  | nil => simp at hi
  | cons e0 rest ih =>
    cases i with
    | zero =>
      simp only [List.getElem?_cons_zero, Option.some.injEq] at hi
      subst hi
      have habs : ∀ e' ∈ rest, e'.1 ≠ e0.1 := by
        intro e' he'
        obtain ⟨j, hj, hje⟩ := List.getElem_of_mem he'
        exact hlast (j + 1) e' (by omega) (by simp [List.getElem?_eq_getElem hj, hje])
      have := mapLookup_assignAll_absent rest (mapAssign m e0.1 e0.2) e0.1 habs
      unfold assignAll at this ⊢
      rw [List.foldl_cons, this, mapLookup_mapAssign, if_pos rfl]
    | succ i =>
      simp only [List.getElem?_cons_succ] at hi
      have := ih (mapAssign m e0.1 e0.2) i hi
        (fun j e' hj he' => hlast (j + 1) e' (by omega) (by simpa using he'))
      unfold assignAll at this ⊢
      rw [List.foldl_cons]
      exact this

/-! ## The exported proofs map -/

theorem proofEntries_keys (L : Lib) (proofs : List Proof) (store : List Account)
    (h : store.length ≤ proofs.length) :
    (proofEntries L proofs (store.map toExported)).map Prod.fst = addrTexts L store := by
  unfold proofEntries addrTexts
  apply List.ext_getElem?
  intro i
  simp only [List.getElem?_map, List.getElem?_zipWith]
  by_cases hi : i < store.length
  · rw [List.getElem?_eq_getElem (show i < proofs.length by omega), List.getElem?_eq_getElem hi]
    rfl
  · rw [List.getElem?_eq_none (show store.length ≤ i by omega)]
    cases proofs[i]? <;> rfl

/-- The proofs map and the state root of a returned snapshot record. -/
theorem genStateOf_proofs (L : Lib) (mtNew : Config → List ExportedAccount → Except Error MerkleTree)
    (app : App) (genState : ExportedAccountState)
    (h : genStateOf L mtNew app = Outcome.returned (Except.ok genState)) :
    ∃ tree,
      mtNew exportConfig (app.store.map toExported) = Except.ok tree ∧
      app.store.length ≤ tree.Proofs.length ∧
      genState.Proofs = assignAll [] (proofEntries L tree.Proofs (app.store.map toExported)) ∧
      genState.StateRoot = hexString tree.Root := by
  obtain ⟨tree, m, ht, hp, rfl⟩ := genStateOf_ok L mtNew app genState h
  have hb := proofLoop_bound L tree.Proofs (app.store.map toExported) app.store.length 0 [] m hp
  have hlen : app.store.length ≤ tree.Proofs.length := by
    rcases hb with h0 | ⟨h1, _⟩ <;> omega
  refine ⟨tree, ht, hlen, ?_, rfl⟩
  rw [proofLoop_eq L tree.Proofs (app.store.map toExported) app.store.length 0 []
    (by omega) (by simp)] at hp
  simp only [Outcome.returned.injEq] at hp
  rw [← hp, List.drop_zero]
  show assignAll [] (List.take _ _) = assignAll [] _
  rw [List.take_of_length_le]
  simp [proofEntries]

theorem proofEntries_at (L : Lib) (proofs : List Proof) (store : List Account) (i : Nat)
    (hi : i < store.length) (h : store.length ≤ proofs.length) :
    ∃ p, proofs[i]? = some p ∧
      (proofEntries L proofs (store.map toExported))[i]? =
        some (L.addrString (store.get ⟨i, hi⟩).Address, p.Siblings.map hexString) := by
  have hpi : i < proofs.length := by omega
  refine ⟨proofs[i], List.getElem?_eq_getElem hpi, ?_⟩
  rw [proofEntries_getElem? L proofs (store.map toExported) i proofs[i]
    (toExported (store.get ⟨i, hi⟩)) (List.getElem?_eq_getElem hpi)
    (by simp [List.getElem?_map, List.getElem?_eq_getElem hi])]
  rfl

theorem proofEntries_key_at (L : Lib) (proofs : List Proof) (store : List Account) (j : Nat)
    (e : String × List String)
    (he : (proofEntries L proofs (store.map toExported))[j]? = some e) :
    ∃ hj : j < store.length, e.1 = L.addrString (store.get ⟨j, hj⟩).Address := by
  unfold proofEntries at he
  rw [List.getElem?_zipWith] at he
  by_cases hj : j < store.length
  · refine ⟨hj, ?_⟩
    have : (store.map toExported)[j]? = some (toExported (store.get ⟨j, hj⟩)) := by
      simp [List.getElem?_map, List.getElem?_eq_getElem hj]
    rw [this] at he
    cases hp : proofs[j]? with
    | none => rw [hp] at he; simp at he
    | some p =>
      rw [hp] at he
      simp only [Option.map_some', Option.some_bind, Option.some.injEq] at he
      rw [← he]
      rfl
  · have : (store.map toExported)[j]? = none := by
      rw [List.getElem?_eq_none]
      simp only [List.length_map]
      omega
    rw [this] at he
    cases hp : proofs[j]? with
    | none => rw [hp] at he; simp at he
    | some p => rw [hp] at he; simp at he

/-- Claim C10: in every snapshot record, the number of entries of the proofs
map is the number of distinct address texts among the accounts (at most the
number of accounts), and the entry under the address of account `i` is the
encoded proof `i` whenever no later account has that address. -/
theorem c10_duplicate_addresses_collapse (L : Lib)
    (mtNew : Config → List ExportedAccount → Except Error MerkleTree) (app : App)
    (genState : ExportedAccountState)
    (hret : genStateOf L mtNew app = Outcome.returned (Except.ok genState)) :
    mapLen genState.Proofs = (addrTexts L app.store).dedup.length ∧
      mapLen genState.Proofs ≤ app.store.length ∧
      ∃ tree, mtNew exportConfig (app.store.map toExported) = Except.ok tree ∧
        ∀ i (hi : i < app.store.length),
          (∀ j (hj : j < app.store.length), i < j →
            L.addrString (app.store.get ⟨j, hj⟩).Address ≠
              L.addrString (app.store.get ⟨i, hi⟩).Address) →
          ∃ p, tree.Proofs[i]? = some p ∧
            mapLookup genState.Proofs (L.addrString (app.store.get ⟨i, hi⟩).Address) =
              some (p.Siblings.map hexString) := by
  obtain ⟨tree, ht, hlen, hproofs, _⟩ := genStateOf_proofs L mtNew app genState hret
  have hcount : mapLen genState.Proofs = (addrTexts L app.store).dedup.length := by
    rw [hproofs, mapLen_assignAll, proofEntries_keys L tree.Proofs app.store hlen]
  refine ⟨hcount, ?_, tree, ht, ?_⟩
  · rw [hcount]
    calc (addrTexts L app.store).dedup.length ≤ (addrTexts L app.store).length :=
          (List.dedup_sublist _).length_le
      _ = app.store.length := by simp [addrTexts]
  · intro i hi hlast
    obtain ⟨p, hp, he⟩ := proofEntries_at L tree.Proofs app.store i hi hlen
    refine ⟨p, hp, ?_⟩
    rw [hproofs]
    refine mapLookup_assignAll_last _ [] i
      (L.addrString (app.store.get ⟨i, hi⟩).Address, p.Siblings.map hexString) he ?_
    intro j e' hij he'
    obtain ⟨hj, hkey⟩ := proofEntries_key_at L tree.Proofs app.store j e' he'
    rw [hkey]
    exact hlast j hj hij

/-- Claim C10 on three accounts, the first and last under one address: two
entries, and the shared address holds the encoded proof of the last account. -/
theorem c10_duplicate_addresses_collapse_witness :
    ∃ genState, genStateOf refLib (TreeBuilder refLib) (appOf sharedAddrStore) =
        Outcome.returned (Except.ok genState) ∧
      mapLen genState.Proofs = 2 ∧ (addrTexts refLib (appOf sharedAddrStore).store).dedup.length = 2 ∧
      mapLookup genState.Proofs "0xaa" = some ["0xf0", "0x88"] ∧
      mapLen genState.Proofs = (addrTexts refLib (appOf sharedAddrStore).store).dedup.length :=
  ⟨_, rfl, by decide, by decide, by decide,
    (c10_duplicate_addresses_collapse refLib (TreeBuilder refLib) (appOf sharedAddrStore) _ rfl).1⟩

/-- Claim C6: in every snapshot record over accounts with pairwise distinct
address texts, the proofs map has exactly one entry per account, its keys
are the address texts of the accounts, and the entry under the address text
of account `i` is the list of the siblings of the tree's proof `i`, each
written by `hexString`, in the same order and of the same length. -/
theorem c6_proofs_keyed_by_address (L : Lib)
    (mtNew : Config → List ExportedAccount → Except Error MerkleTree) (app : App)
    (genState : ExportedAccountState)
    (hret : genStateOf L mtNew app = Outcome.returned (Except.ok genState))
    (hdistinct : (addrTexts L app.store).Nodup) :
    mapLen genState.Proofs = app.store.length ∧
      (∀ k, k ∈ mapKeys genState.Proofs ↔ k ∈ addrTexts L app.store) ∧
      ∃ tree, mtNew exportConfig (app.store.map toExported) = Except.ok tree ∧
        ∀ i (hi : i < app.store.length),
          ∃ p, tree.Proofs[i]? = some p ∧
            mapLookup genState.Proofs (L.addrString (app.store.get ⟨i, hi⟩).Address) =
              some (p.Siblings.map hexString) ∧
            (p.Siblings.map hexString).length = p.Siblings.length ∧
            ∀ j (hj : j < p.Siblings.length),
              (p.Siblings.map hexString)[j]? = some (hexString (p.Siblings.get ⟨j, hj⟩)) := by
  obtain ⟨tree, ht, hlen, hproofs, _⟩ := genStateOf_proofs L mtNew app genState hret
  have hkeys := assignAll_keys (proofEntries L tree.Proofs (app.store.map toExported))
    ([] : GoMap (List String)) (by simp [mapKeys])
  rw [← hproofs, proofEntries_keys L tree.Proofs app.store hlen] at hkeys
  refine ⟨?_, ?_, tree, ht, ?_⟩
  · rw [hproofs, mapLen_assignAll, proofEntries_keys L tree.Proofs app.store hlen,
      List.Nodup.dedup hdistinct]
    simp [addrTexts]
  · intro k
    have := congrArg (fun s => k ∈ s) hkeys.2
    simpa [mapKeys] using this
  · intro i hi
    obtain ⟨p, hp, he⟩ := proofEntries_at L tree.Proofs app.store i hi hlen
    refine ⟨p, hp, ?_, by simp, ?_⟩
    · rw [hproofs]
      refine mapLookup_assignAll_last _ [] i
        (L.addrString (app.store.get ⟨i, hi⟩).Address, p.Siblings.map hexString) he ?_
      intro j e' hij he'
      obtain ⟨hj, hkey⟩ := proofEntries_key_at L tree.Proofs app.store j e' he'
      rw [hkey]
      intro heq
      have hi' : i < (addrTexts L app.store).length := by simpa [addrTexts] using hi
      have hj' : j < (addrTexts L app.store).length := by simpa [addrTexts] using hj
      have hinj := List.nodup_iff_injective_get.mp hdistinct
      have hfin : (⟨j, hj'⟩ : Fin (addrTexts L app.store).length) = ⟨i, hi'⟩ :=
        hinj (by simpa [addrTexts] using heq)
      have hji : j = i := Fin.mk.inj hfin
      omega
    · intro j hj
      simp [List.getElem?_map, List.getElem?_eq_getElem hj]

/-- Claim C6 on three accounts with distinct addresses. -/
theorem c6_proofs_keyed_by_address_witness :
    ∃ genState, genStateOf refLib (TreeBuilder refLib) (appOf threeStore) =
        Outcome.returned (Except.ok genState) ∧
      (addrTexts refLib (appOf threeStore).store).Nodup ∧
      genState.Proofs =
        [("0xaa", ["0xe8", "0xd8"]), ("0xbb", ["0xb8", "0xd8"]), ("0xcc", ["0xbc", "0x88"])] ∧
      mapLen genState.Proofs = (appOf threeStore).store.length :=
  ⟨_, rfl, by decide, by decide,
    (c6_proofs_keyed_by_address refLib (TreeBuilder refLib) (appOf threeStore) _ rfl
      (by decide)).1⟩

/-! ## Error paths -/

theorem genStateOf_error (L : Lib) (mtNew : Config → List ExportedAccount → Except Error MerkleTree)
    (app : App) (e : Error) (h : mtNew exportConfig (app.store.map toExported) = Except.error e) :
    genStateOf L mtNew app = Outcome.returned (Except.error e) := by
  unfold genStateOf
  rw [collect_eq]
  dsimp only
  rw [h]

/-- Claim C5: when the tree builder returns an error, `ExportAccounts`
returns that error with a nil document; when the marshaller returns an
error, likewise; and whatever pair `ExportAccounts` returns has either a nil
document and an error, or a document and a nil error. -/
theorem c5_all_or_nothing (L : Lib)
    (mtNew : Config → List ExportedAccount → Except Error MerkleTree) (app : App) :
    (∀ e, mtNew exportConfig (app.store.map toExported) = Except.error e →
        ExportAccountsWith L mtNew app = Outcome.returned (none, some e)) ∧
      (∀ genState e, genStateOf L mtNew app = Outcome.returned (Except.ok genState) →
        L.marshal genState = Except.error e →
        ExportAccountsWith L mtNew app = Outcome.returned (none, some e)) ∧
      ∀ appState err, ExportAccountsWith L mtNew app = Outcome.returned (appState, err) →
        (appState = none ∧ err ≠ none) ∨ (appState ≠ none ∧ err = none) := by
  refine ⟨?_, ?_, ?_⟩
  · intro e he
    unfold ExportAccountsWith
    rw [genStateOf_error L mtNew app e he]
  · intro genState e hg hm
    unfold ExportAccountsWith
    rw [hg]
    dsimp only
    rw [hm]
  · intro appState err h
    unfold ExportAccountsWith at h
    cases hg : genStateOf L mtNew app with
    | outOfRange => rw [hg] at h; exact Outcome.noConfusion h
    | returned r =>
      rw [hg] at h
      cases r with
      | error e =>
        simp only [Outcome.returned.injEq, Prod.mk.injEq] at h
        left
        exact ⟨h.1.symm, by rw [← h.2]; simp⟩
      | ok genState =>
        dsimp only at h
        cases hm : L.marshal genState with
        | error e =>
          rw [hm] at h
          simp only [Outcome.returned.injEq, Prod.mk.injEq] at h
          left
          exact ⟨h.1.symm, by rw [← h.2]; simp⟩
        | ok bz =>
          rw [hm] at h
          simp only [Outcome.returned.injEq, Prod.mk.injEq] at h
          right
          exact ⟨by rw [← h.1]; simp, h.2.symm⟩

/-- Claim C5 on a failing tree builder, a failing marshaller, and a run that
succeeds. -/
theorem c5_all_or_nothing_witness :
    ExportAccountsWith refLib failingBuilder (appOf twoStore) =
        Outcome.returned (none, some (Error.other 1)) ∧
      ExportAccountsWith failingMarshalLib (TreeBuilder failingMarshalLib) (appOf twoStore) =
        Outcome.returned (none, some (Error.other 2)) ∧
      ExportAccountsWith refLib (TreeBuilder refLib) (appOf twoStore) =
        Outcome.returned (some [48, 120, 56, 56], none) ∧
      ((some [48, 120, 56, 56] : Option Bytes) = none ∧ (none : Option Error) ≠ none ∨
        (some [48, 120, 56, 56] : Option Bytes) ≠ none ∧ (none : Option Error) = none) :=
  ⟨(c5_all_or_nothing refLib failingBuilder (appOf twoStore)).1 (Error.other 1) rfl,
    (c5_all_or_nothing failingMarshalLib (TreeBuilder failingMarshalLib) (appOf twoStore)).2.1
      _ (Error.other 2) rfl rfl,
    by decide,
    (c5_all_or_nothing refLib (TreeBuilder refLib) (appOf twoStore)).2.2 _ _ (by decide)⟩

/-! ## Index safety -/

/-- With a tree that carries fewer proofs than data blocks, the read
`proofs[i]` of line 80 is out of range. -/
theorem genStateOf_noProofBuilder :
    genStateOf refLib noProofBuilder (appOf twoStore) = Outcome.outOfRange := rfl

/-- Claim C9: when a successful tree build returns exactly one proof per data
block, the assembly loops read `proofs[i]`, `accounts[i]` and
`proof.Siblings[j]` within range only: every index the outer loop visits is
below both lengths, the outer and inner loops complete, and
`ExportAccounts` ends without an index fault. -/
theorem c9_assembly_in_range (L : Lib)
    (mtNew : Config → List ExportedAccount → Except Error MerkleTree) (app : App)
    (hproofs : ∀ tree, mtNew exportConfig (collect L app.store).mtData = Except.ok tree →
      tree.Proofs.length = (collect L app.store).mtData.length) :
    ExportAccountsWith L mtNew app ≠ Outcome.outOfRange ∧
      (∀ tree, mtNew exportConfig (collect L app.store).mtData = Except.ok tree →
        (∀ i, i < (collect L app.store).mtData.length →
          i < tree.Proofs.length ∧ i < (collect L app.store).accounts.length) ∧
        ∃ exportedProof,
          proofLoop L tree.Proofs (collect L app.store).accounts
            (collect L app.store).mtData.length 0 [] = Outcome.returned exportedProof) ∧
      ∀ sibs : List Bytes, ∃ nProof,
        siblingLoop sibs sibs.length 0 [] = Outcome.returned nProof := by
  have hacc : (collect L app.store).accounts.length = (collect L app.store).mtData.length := by
    rw [collect_eq]
  have hloop : ∀ tree, mtNew exportConfig (collect L app.store).mtData = Except.ok tree →
      ∃ exportedProof,
        proofLoop L tree.Proofs (collect L app.store).accounts
          (collect L app.store).mtData.length 0 [] = Outcome.returned exportedProof := by
    intro tree ht
    exact ⟨_, proofLoop_eq L tree.Proofs _ _ 0 [] (by rw [hproofs tree ht]; omega)
      (by rw [hacc]; omega)⟩
  refine ⟨?_, ?_, fun sibs => ⟨_, siblingLoop_all sibs⟩⟩
  · unfold ExportAccountsWith genStateOf
    dsimp only
    cases ht : mtNew exportConfig (collect L app.store).mtData with
    | error e => simp
    | ok tree =>
      obtain ⟨m, hm⟩ := hloop tree ht
      dsimp only
      rw [hm]
      dsimp only
      cases L.marshal _ <;> simp
  · intro tree ht
    refine ⟨fun i hi => ⟨by rw [hproofs tree ht]; exact hi, by rw [hacc]; exact hi⟩, hloop tree ht⟩

/-- Claim C9 on three accounts and the tree builder of the spec. -/
theorem c9_assembly_in_range_witness :
    (∀ tree, TreeBuilder refLib exportConfig (collect refLib (appOf threeStore).store).mtData =
        Except.ok tree →
      tree.Proofs.length = (collect refLib (appOf threeStore).store).mtData.length) ∧
      (∃ tree, TreeBuilder refLib exportConfig (collect refLib (appOf threeStore).store).mtData =
        Except.ok tree) ∧
      ExportAccountsWith refLib (TreeBuilder refLib) (appOf threeStore) ≠ Outcome.outOfRange :=
  ⟨fun tree ht => by
      have h : tree = _ := (Except.ok.inj ht).symm
      rw [h]
      decide,
    ⟨_, rfl⟩,
    (c9_assembly_in_range refLib (TreeBuilder refLib) (appOf threeStore) (fun tree ht => by
      have h : tree = _ := (Except.ok.inj ht).symm
      rw [h]
      decide)).1⟩

/-! ## Hash text -/

theorem unhex_hexDigit (n : Nat) (h : n < 16) :
    unhex (hexDigit n) = some n ∧ isLowerHex (hexDigit n) = true := by
  have key : ∀ k : Fin 16, unhex (hexDigit k.val) = some k.val ∧ isLowerHex (hexDigit k.val) = true := by
    decide
  exact key ⟨n, h⟩

theorem decodeHex_hexChars (h : Bytes) : decodeHex (hexChars h) = some h := by
  induction h with
  | nil => rfl
  | cons v rest ih =>
    have h1 := (unhex_hexDigit (v.val / 16) (by omega)).1
    have h2 := (unhex_hexDigit (v.val % 16) (Nat.mod_lt _ (by decide))).1
    simp only [hexChars, decodeHex, h1, h2, ih]
    congr 2
    apply Fin.ext
    show (v.val / 16 * 16 + v.val % 16) % 256 = v.val
    omega

theorem hexChars_lower (h : Bytes) : ∀ c ∈ hexChars h, isLowerHex c = true := by
  induction h with
  | nil => simp [hexChars]
  | cons v rest ih =>
    intro c hc
    simp only [hexChars, List.mem_cons] at hc
    rcases hc with rfl | rfl | hc
    · exact (unhex_hexDigit (v.val / 16) (by omega)).2
    · exact (unhex_hexDigit (v.val % 16) (Nat.mod_lt _ (by decide))).2
    · exact ih c hc

theorem hexChars_length (h : Bytes) : (hexChars h).length = 2 * h.length := by
  induction h with
  | nil => rfl
  | cons v rest ih => simp only [hexChars, List.length_cons, ih]; omega

theorem hexChars_digits (h : Bytes) (i : Nat) (hi : i < h.length) :
    (hexChars h)[2 * i]? = some (hexDigit ((h.get ⟨i, hi⟩).val / 16)) ∧
      (hexChars h)[2 * i + 1]? = some (hexDigit ((h.get ⟨i, hi⟩).val % 16)) := by
  induction h generalizing i with
  | nil => simp at hi
  | cons v rest ih =>
    cases i with
    | zero => simp [hexChars]
    | succ i =>
      have hi' : i < rest.length := by simpa using hi
      have := ih i hi'
      have e1 : 2 * (i + 1) = (2 * i) + 1 + 1 := by omega
      rw [e1]
      simpa [hexChars] using this

theorem hexString_data (h : Bytes) : (hexString h).data = '0' :: 'x' :: hexChars h := by
  simp [hexString, Bytes2Hex, String.data_append]

theorem mem_mapAssign {V : Type} (m : GoMap V) (k : String) (v : V) (e : String × V)
    (h : e ∈ mapAssign m k v) : e ∈ m ∨ e = (k, v) := by
  induction m with
  | nil => simpa [mapAssign] using h
  | cons p rest ih =>
    obtain ⟨k', v'⟩ := p
    unfold mapAssign at h
    split at h
    · rcases List.mem_cons.mp h with h1 | h1
      · exact Or.inr h1
      · exact Or.inl (List.mem_cons_of_mem _ h1)
    · rcases List.mem_cons.mp h with h1 | h1
      · exact Or.inl (by rw [h1]; exact List.mem_cons_self _ _)
      · rcases ih h1 with h2 | h2
        · exact Or.inl (List.mem_cons_of_mem _ h2)
        · exact Or.inr h2

theorem mem_assignAll {V : Type} (es : List (String × V)) (m : GoMap V) (e : String × V)
    (h : e ∈ assignAll m es) : e ∈ m ∨ e ∈ es := by
  induction es generalizing m with
  | nil => exact Or.inl h
  | cons e0 rest ih =>
    unfold assignAll at h ih
    rw [List.foldl_cons] at h
    rcases ih _ h with h1 | h1
    · rcases mem_mapAssign m e0.1 e0.2 e h1 with h2 | h2
      · exact Or.inl h2
      · exact Or.inr (by rw [h2]; exact List.mem_cons_self _ _)
    · exact Or.inr (List.mem_cons_of_mem _ h1)

theorem mem_of_mapLookup {V : Type} (m : GoMap V) (k : String) (v : V)
    (h : mapLookup m k = some v) : (k, v) ∈ m := by
  induction m with
  | nil => simp [mapLookup] at h
  | cons p rest ih =>
    obtain ⟨k', v'⟩ := p
    unfold mapLookup at h
    split at h
    · next hk =>
      simp only [Option.some.injEq] at h
      rw [← hk, ← h]
      exact List.mem_cons_self _ _
    · exact List.mem_cons_of_mem _ (ih h)

theorem mem_proofEntries (L : Lib) (proofs : List Proof) (accounts : List ExportedAccount)
    (e : String × List String) (h : e ∈ proofEntries L proofs accounts) :
    ∃ p ∈ proofs, e.2 = p.Siblings.map hexString := by
  unfold proofEntries at h
  obtain ⟨i, hi, hie⟩ := List.getElem_of_mem h
  rw [List.getElem_zipWith] at hie
  exact ⟨_, List.getElem_mem _, by rw [← hie]⟩

/-- Claim C7: in every snapshot record the state root is `hexString` of the
tree root and every string of every proofs entry is `hexString` of a sibling
of a proof of the tree; and `hexString h` is the characters `0x` followed by
two lowercase hexadecimal digits per byte of `h`, in byte order (high nibble
first), so a 32-byte hash gives 66 characters, and decoding gives `h` back. -/
theorem c7_hash_text (L : Lib)
    (mtNew : Config → List ExportedAccount → Except Error MerkleTree) (app : App)
    (genState : ExportedAccountState)
    (hret : genStateOf L mtNew app = Outcome.returned (Except.ok genState)) :
    (∃ tree, mtNew exportConfig (app.store.map toExported) = Except.ok tree ∧
        genState.StateRoot = hexString tree.Root ∧
        ∀ k strs, mapLookup genState.Proofs k = some strs →
          ∀ s ∈ strs, ∃ p ∈ tree.Proofs, ∃ h ∈ p.Siblings, s = hexString h) ∧
      ∀ h : Bytes,
        (hexString h).data = '0' :: 'x' :: hexChars h ∧
        (hexString h).length = 2 + 2 * h.length ∧
        (h.length = 32 → (hexString h).length = 66) ∧
        (∀ c ∈ hexChars h, isLowerHex c = true) ∧
        (∀ i (hi : i < h.length),
          (hexChars h)[2 * i]? = some (hexDigit ((h.get ⟨i, hi⟩).val / 16)) ∧
          (hexChars h)[2 * i + 1]? = some (hexDigit ((h.get ⟨i, hi⟩).val % 16))) ∧
        decodeHexString (hexString h) = some h := by
  constructor
  · obtain ⟨tree, ht, _, hproofs, hroot⟩ := genStateOf_proofs L mtNew app genState hret
    refine ⟨tree, ht, hroot, ?_⟩
    intro k strs hk s hs
    have hmem := mem_of_mapLookup _ k strs hk
    rw [hproofs] at hmem
    rcases mem_assignAll _ _ _ hmem with h1 | h1
    · simp at h1
    · obtain ⟨p, hp, hval⟩ := mem_proofEntries L _ _ _ h1
      simp only at hval
      rw [hval, List.mem_map] at hs
      obtain ⟨h, hh, rfl⟩ := hs
      exact ⟨p, hp, h, hh, rfl⟩
  · intro h
    have hlen : (hexString h).length = 2 + 2 * h.length := by
      rw [String.length, hexString_data]
      simp only [List.length_cons, hexChars_length]
      omega
    refine ⟨hexString_data h, hlen, fun h32 => by rw [hlen, h32], hexChars_lower h,
      hexChars_digits h, ?_⟩
    unfold decodeHexString
    rw [hexString_data]
    exact decodeHex_hexChars h

/-- Claim C7 on the snapshot of three accounts and on a two-byte hash. -/
theorem c7_hash_text_witness :
    ∃ genState, genStateOf refLib (TreeBuilder refLib) (appOf threeStore) =
        Outcome.returned (Except.ok genState) ∧
      genState.StateRoot = "0x8a" ∧
      hexString [0x0A, 0xFF] = "0x0aff" ∧
      decodeHexString (hexString [0x0A, 0xFF]) = some [0x0A, 0xFF] :=
  ⟨_, rfl, by decide, by decide,
    ((c7_hash_text refLib (TreeBuilder refLib) (appOf threeStore) _ rfl).2 [0x0A, 0xFF]).2.2.2.2.2⟩

/-! ## The tree of the spec: levels and sibling paths -/

theorem bytesLess_asymm (a b : Bytes) (h : bytesLess a b = true) : bytesLess b a = false := by
  induction a generalizing b with
  | nil => cases b <;> simp_all [bytesLess]
  | cons x xs ih =>
    cases b with
    | nil => simp [bytesLess] at h
    | cons y ys =>
      unfold bytesLess at h ⊢
      by_cases hxy : x < y
      · have hyx : ¬ y < x := lt_asymm hxy
        simp [hxy, hyx]
      · by_cases hyx : y < x
        · simp [hxy, hyx] at h
        · simp only [hxy, hyx, if_false] at h ⊢
          exact ih ys h

theorem bytesLess_total (a b : Bytes) (h1 : bytesLess a b = false) (h2 : bytesLess b a = false) :
    a = b := by
  induction a generalizing b with
  | nil => cases b <;> simp_all [bytesLess]
  | cons x xs ih =>
    cases b with
    | nil => simp [bytesLess] at h2
    | cons y ys =>
      unfold bytesLess at h1 h2
      by_cases hxy : x < y
      · simp [hxy] at h1
      · by_cases hyx : y < x
        · simp [hyx] at h2
        · simp only [hxy, hyx, if_false] at h1 h2
          have hx : x = y := le_antisymm (not_lt.mp hyx) (not_lt.mp hxy)
          rw [hx, ih ys h1 h2]

/-- With sorted sibling pairs the parent does not depend on which child is
left. -/
theorem combine_comm (L : Lib) (cfg : Config) (hsort : cfg.SortSiblingPairs = true) (a b : Bytes) :
    combine L cfg a b = combine L cfg b a := by
  unfold combine
  simp only [hsort, if_true]
  cases hba : bytesLess b a with
  | true => simp [bytesLess_asymm b a hba]
  | false =>
    cases hab : bytesLess a b with
    | true => simp
    | false => simp [bytesLess_total a b hab hba]

theorem levelUp_length (L : Lib) (cfg : Config) (n : Nat) (lv : List Bytes)
    (h : lv.length = 2 * n) : (levelUp L cfg lv).length = n := by
  induction n generalizing lv with
  | zero =>
    have : lv = [] := List.length_eq_zero.mp (by omega)
    subst this
    rfl
  | succ n ih =>
    match lv, h with
    | a :: b :: rest, h =>
      simp only [levelUp, List.length_cons]
      rw [ih rest (by simp only [List.length_cons] at h; omega)]

theorem levelUp_pair (L : Lib) (cfg : Config) (hsort : cfg.SortSiblingPairs = true) (n : Nat)
    (lv : List Bytes) (i : Nat) (h : lv.length = 2 * n) (hi : i < lv.length) :
    (levelUp L cfg lv).getD (i / 2) [] =
      combine L cfg (lv.getD i []) (lv.getD (siblingIndex i) []) := by
  induction n generalizing lv i with
  | zero => omega
  | succ n ih =>
    match lv, h, hi with
    | a :: b :: rest, h, hi =>
      match i, hi with
      | 0, _ => simp [levelUp, siblingIndex]
      | 1, _ =>
        simp only [levelUp, siblingIndex]
        simpa using combine_comm L cfg hsort a b
      | i + 2, hi =>
        have hrest : rest.length = 2 * n := by simp only [List.length_cons] at h; omega
        have hi' : i < rest.length := by simp only [List.length_cons] at hi; omega
        have := ih rest i hrest hi'
        have e1 : (i + 2) / 2 = i / 2 + 1 := by omega
        have e2 : siblingIndex (i + 2) = siblingIndex i + 2 := by
          unfold siblingIndex
          by_cases hpar : i % 2 = 0
          · have : (i + 2) % 2 = 0 := by omega
            simp [hpar, this]
          · have : ¬ (i + 2) % 2 = 0 := by omega
            simp only [hpar, this, if_false]
            omega
        rw [e1, e2]
        simpa [levelUp] using this

/-- Folding the sibling path of position `i` into the hash at position `i`
of a level of `2 ^ d` hashes gives the top of the tree over that level. -/
theorem siblingPath_fold (L : Lib) (cfg : Config) (hsort : cfg.SortSiblingPairs = true) (d : Nat)
    (lv : List Bytes) (i : Nat) (h : lv.length = 2 ^ d) (hi : i < lv.length) :
    verifyFold L cfg (lv.getD i []) (siblingPath L cfg d lv i) = (climb L cfg d lv).headD [] := by
  induction d generalizing lv i with
  | zero =>
    have hi0 : i = 0 := by simp at h; omega
    subst hi0
    match lv, h with
    | [a], _ => rfl
  | succ d ih =>
    have h2 : lv.length = 2 * 2 ^ d := by rw [h, pow_succ]; omega
    have hlen := levelUp_length L cfg (2 ^ d) lv h2
    have hpair := levelUp_pair L cfg hsort (2 ^ d) lv i h2 hi
    have := ih (levelUp L cfg lv) (i / 2) hlen (by rw [hlen]; omega)
    unfold verifyFold at this ⊢
    rw [siblingPath, climb, List.foldl_cons, ← hpair]
    exact this

theorem le_two_pow_ceilLog2 (n : Nat) : n ≤ 2 ^ ceilLog2 n := by
  unfold ceilLog2
  cases hf : (List.range (n + 1)).find? (fun k => decide (n ≤ 2 ^ k)) with
  | none => exact Nat.le_of_lt (Nat.lt_two_pow n)
  | some k => simpa using List.find?_some hf

theorem padLevel_length (L : Lib) (hs : List Bytes) :
    (padLevel L hs).length = 2 ^ ceilLog2 hs.length := by
  have := le_two_pow_ceilLog2 hs.length
  unfold padLevel
  simp only [List.length_append, List.length_replicate]
  omega

theorem padLevel_getD (L : Lib) (hs : List Bytes) (i : Nat) (hi : i < hs.length) :
    (padLevel L hs).getD i [] = hs.get ⟨i, hi⟩ := by
  unfold padLevel
  simp [List.getD_eq_getElem?_getD, List.getElem?_append_left hi, List.getElem?_eq_getElem hi]

theorem leafHashes_spec (L : Lib) (blocks : List ExportedAccount) (hs : List Bytes)
    (h : leafHashes L blocks = Except.ok hs) :
    hs.length = blocks.length ∧
      ∀ i (hi : i < blocks.length), ∃ bytes,
        LeafEncoder L (blocks.get ⟨i, hi⟩) = Except.ok bytes ∧ hs[i]? = some (L.hashFunc bytes) := by
  induction blocks generalizing hs with
  | nil =>
    simp only [leafHashes, Except.ok.injEq] at h
    subst h
    exact ⟨rfl, fun i hi => absurd hi (by simp)⟩
  | cons a rest ih =>
    unfold leafHashes at h
    cases ha : LeafEncoder L a with
    | error e => rw [ha] at h; simp at h
    | ok bs =>
      rw [ha] at h
      dsimp only at h
      cases hr : leafHashes L rest with
      | error e => rw [hr] at h; simp at h
      | ok hs' =>
        rw [hr] at h
        simp only [Except.ok.injEq] at h
        subst h
        obtain ⟨hlen, hall⟩ := ih hs' hr
        refine ⟨by simp [hlen], ?_⟩
        intro i hi
        match i, hi with
        | 0, _ => exact ⟨bs, ha, by simp⟩
        | i + 1, hi =>
          obtain ⟨bytes, hb1, hb2⟩ := hall i (by simpa using hi)
          exact ⟨bytes, hb1, by simpa using hb2⟩

theorem treeBuilder_ok (L : Lib) (cfg : Config) (blocks : List ExportedAccount) (hs : List Bytes)
    (henc : leafHashes L blocks = Except.ok hs) (hne : hs ≠ []) :
    ∃ tree, TreeBuilder L cfg blocks = Except.ok tree ∧
      tree.Proofs.length = hs.length ∧
      (cfg.SortSiblingPairs = true → ∀ i (hi : i < hs.length),
        ∃ p, tree.Proofs[i]? = some p ∧
          verifyFold L cfg (hs.get ⟨i, hi⟩) p.Siblings = tree.Root) := by
  unfold TreeBuilder
  rw [henc]
  match hs, hne with
  | [h], _ =>
    refine ⟨_, rfl, rfl, ?_⟩
    intro _ i hi
    have hi0 : i = 0 := by simp at hi; omega
    subst hi0
    exact ⟨_, rfl, rfl⟩
  | h1 :: h2 :: t, _ =>
    refine ⟨_, rfl, by simp, ?_⟩
    intro hsort i hi
    refine ⟨⟨siblingPath L cfg (ceilLog2 (h1 :: h2 :: t).length) (padLevel L (h1 :: h2 :: t)) i⟩,
      ?_, ?_⟩
    · simp only [List.getElem?_map, List.getElem?_range hi, Option.map_some']
    · have hlen := padLevel_length L (h1 :: h2 :: t)
      have hle := le_two_pow_ceilLog2 (h1 :: h2 :: t).length
      have := siblingPath_fold L cfg hsort (ceilLog2 (h1 :: h2 :: t).length)
        (padLevel L (h1 :: h2 :: t)) i hlen (by rw [hlen]; omega)
      rw [padLevel_getD L (h1 :: h2 :: t) i hi] at this
      exact this

theorem genStateOf_returns (L : Lib)
    (mtNew : Config → List ExportedAccount → Except Error MerkleTree) (app : App)
    (tree : MerkleTree) (ht : mtNew exportConfig (app.store.map toExported) = Except.ok tree)
    (hlen : app.store.length ≤ tree.Proofs.length) :
    ∃ genState, genStateOf L mtNew app = Outcome.returned (Except.ok genState) ∧
      genState.StateRoot = hexString tree.Root ∧
      genState.Proofs = assignAll [] (proofEntries L tree.Proofs (app.store.map toExported)) := by
  have hp := proofLoop_eq L tree.Proofs (app.store.map toExported) app.store.length 0 []
    (by omega) (by simp)
  rw [List.drop_zero, List.take_of_length_le (by simp [proofEntries])] at hp
  refine ⟨{ ChainID := app.ChainID, BlockHeight := app.LastBlockHeight,
            CommitID := app.LastCommitID, Accounts := app.store.map toExported,
            Assets := app.store.foldl (fun m a => addCoins L a.Coins m) [],
            StateRoot := hexString tree.Root,
            Proofs := assignAll [] (proofEntries L tree.Proofs (app.store.map toExported)) },
    ?_, rfl, rfl⟩
  unfold genStateOf
  rw [collect_eq]
  dsimp only
  rw [ht]
  dsimp only
  rw [List.length_map, hp]

/-! ## The edge cases and the round trip, over the tree builder of the spec -/

/-- Claim C2: when the store yields no account, the tree builder fails with
the empty-tree error, no snapshot record is built, and `ExportAccounts`
returns a nil document with that error. -/
theorem c2_empty_input (L : Lib) (app : App) (hempty : app.store = []) :
    TreeBuilder L exportConfig (collect L app.store).mtData = Except.error Error.emptyTree ∧
      exportedState L app = Outcome.returned (Except.error Error.emptyTree) ∧
      ExportAccounts L app = Outcome.returned (none, some Error.emptyTree) := by
  have ht : TreeBuilder L exportConfig (app.store.map toExported) = Except.error Error.emptyTree := by
    rw [hempty]
    rfl
  have hg := genStateOf_error L (TreeBuilder L) app Error.emptyTree ht
  refine ⟨by rw [collect_eq]; exact ht, hg, ?_⟩
  unfold ExportAccounts ExportAccountsWith
  rw [hg]

/-- Claim C2 on the reference library. -/
theorem c2_empty_input_witness :
    (appOf []).store = [] ∧
      ExportAccounts refLib (appOf []) = Outcome.returned (none, some Error.emptyTree) :=
  ⟨rfl, (c2_empty_input refLib (appOf []) rfl).2.2⟩

/-- With a tree builder that requires more than one data block, the export
of a single account fails with the error of the builder. -/
theorem single_account_strictBuilder :
    ExportAccountsWith refLib (strictBuilder refLib) (appOf oneStore) =
      Outcome.returned (none, some (Error.other 3)) := by
  decide

/-- Claim C3, as stated, fails: a store that yields exactly one account does
not always export. With the tree builder of the spec, an account that holds
a coin with an empty denomination, or a negative amount, fails in the leaf
encoder and `ExportAccounts` returns a nil document with the encoding error;
and with a marshaller that fails, a well-formed single account returns a nil
document with the marshaller's error. -/
theorem c3_counterexample :
    ExportAccounts refLib (appOf emptyDenomStore) = Outcome.returned (none, some Error.encoding) ∧
      ExportAccounts refLib (appOf negativeStore) = Outcome.returned (none, some Error.encoding) ∧
      ExportAccounts failingMarshalLib (appOf oneStore) =
        Outcome.returned (none, some (Error.other 2)) := by
  decide

/-- Claim C3, amended: when the store yields exactly one account, its record
is the only data block handed to the tree builder. For every tree builder:
an error of the builder is returned with a nil document, and when the
builder returns a tree that carries a proof for the block, the snapshot's
state root is the text of the tree root, the proofs map is the single entry
of that proof's sibling texts under the account's address, and
`ExportAccounts` returns the marshaller's document or error. With the tree
builder of the spec: when the record encodes to `bytes`, the root is the hash
of that leaf, the exported proof is the empty sequence, and the export
succeeds whenever the marshaller does; when the record does not encode, the
export fails with the encoder's error. -/
theorem c3_single_account (L : Lib) (app : App) (a : Account) (hone : app.store = [a]) :
    (collect L app.store).mtData = [toExported a] ∧
      (∀ mtNew e, mtNew exportConfig [toExported a] = Except.error e →
        ExportAccountsWith L mtNew app = Outcome.returned (none, some e)) ∧
      (∀ mtNew tree p rest, mtNew exportConfig [toExported a] = Except.ok tree →
        tree.Proofs = p :: rest →
        ∃ genState, genStateOf L mtNew app = Outcome.returned (Except.ok genState) ∧
          genState.StateRoot = hexString tree.Root ∧
          genState.Proofs = [(L.addrString a.Address, p.Siblings.map hexString)] ∧
          genState.Accounts = [toExported a] ∧
          (∀ bz, L.marshal genState = Except.ok bz →
            ExportAccountsWith L mtNew app = Outcome.returned (some bz, none)) ∧
          (∀ e, L.marshal genState = Except.error e →
            ExportAccountsWith L mtNew app = Outcome.returned (none, some e))) ∧
      (∀ bytes, LeafEncoder L (toExported a) = Except.ok bytes →
        TreeBuilder L exportConfig [toExported a] =
          Except.ok { Root := L.hashFunc bytes, Proofs := [{ Siblings := [] }] } ∧
        ∃ genState, exportedState L app = Outcome.returned (Except.ok genState) ∧
          genState.StateRoot = hexString (L.hashFunc bytes) ∧
          genState.Proofs = [(L.addrString a.Address, [])] ∧
          mapLookup genState.Proofs (L.addrString a.Address) = some [] ∧
          ∀ bz, L.marshal genState = Except.ok bz →
            ExportAccounts L app = Outcome.returned (some bz, none)) ∧
      ∀ e, LeafEncoder L (toExported a) = Except.error e →
        ExportAccounts L app = Outcome.returned (none, some e) := by
  have hmap : app.store.map toExported = [toExported a] := by rw [hone]; rfl
  have hgen : ∀ mtNew tree p rest, mtNew exportConfig [toExported a] = Except.ok tree →
      tree.Proofs = p :: rest →
      ∃ genState, genStateOf L mtNew app = Outcome.returned (Except.ok genState) ∧
        genState.StateRoot = hexString tree.Root ∧
        genState.Proofs = [(L.addrString a.Address, p.Siblings.map hexString)] ∧
        genState.Accounts = [toExported a] ∧
        (∀ bz, L.marshal genState = Except.ok bz →
          ExportAccountsWith L mtNew app = Outcome.returned (some bz, none)) ∧
        (∀ e, L.marshal genState = Except.error e →
          ExportAccountsWith L mtNew app = Outcome.returned (none, some e)) := by
    intro mtNew tree p rest ht hp
    obtain ⟨genState, hg, hroot, hproofs⟩ := genStateOf_returns L mtNew app tree
      (by rw [hmap]; exact ht) (by rw [hone, hp]; simp)
    obtain ⟨_, _, _, _, hgs⟩ := genStateOf_ok L mtNew app genState hg
    refine ⟨genState, hg, hroot, ?_, ?_, ?_, ?_⟩
    · rw [hproofs, hmap, hp]
      simp [proofEntries, assignAll, mapAssign, toExported]
    · rw [hgs, hmap]
    · intro bz hbz
      unfold ExportAccountsWith
      rw [hg]
      dsimp only
      rw [hbz]
    · intro e he
      unfold ExportAccountsWith
      rw [hg]
      dsimp only
      rw [he]
  have herr : ∀ mtNew e, mtNew exportConfig [toExported a] = Except.error e →
      ExportAccountsWith L mtNew app = Outcome.returned (none, some e) := by
    intro mtNew e he
    unfold ExportAccountsWith
    rw [genStateOf_error L mtNew app e (by rw [hmap]; exact he)]
  refine ⟨by rw [collect_eq, hmap], herr, hgen, ?_, ?_⟩
  · intro bytes henc
    have ht : TreeBuilder L exportConfig [toExported a] =
        Except.ok { Root := L.hashFunc bytes, Proofs := [{ Siblings := [] }] } := by
      simp only [TreeBuilder, leafHashes, henc]
    obtain ⟨genState, hg, hroot, hproofs, _, hok, _⟩ := hgen (TreeBuilder L) _ _ _ ht rfl
    have hp : genState.Proofs = [(L.addrString a.Address, [])] := hproofs
    refine ⟨ht, genState, hg, hroot, hp, ?_, hok⟩
    rw [hp]
    simp [mapLookup]
  · intro e henc
    have ht : TreeBuilder L exportConfig [toExported a] = Except.error e := by
      simp only [TreeBuilder, leafHashes, henc]
    exact herr (TreeBuilder L) e ht

/-- Claim C3, amended, on the first account of the worked example. -/
theorem c3_single_account_witness :
    (appOf oneStore).store =
        [{ Address := [0xAA], AccountNumber := 1, Coins := [{ Denom := "ATOM", Amount := 10 }] }] ∧
      TreeBuilder refLib exportConfig
          [toExported { Address := [0xAA], AccountNumber := 1,
                        Coins := [{ Denom := "ATOM", Amount := 10 }] }] =
        Except.ok { Root := refLib.hashFunc [0xAA, 1, 10], Proofs := [{ Siblings := [] }] } ∧
      ExportAccounts refLib (appOf oneStore) = Outcome.returned (some [48, 120, 98, 56], none) ∧
      ∃ genState, exportedState refLib (appOf oneStore) = Outcome.returned (Except.ok genState) ∧
        genState.StateRoot = "0xb8" ∧ genState.Proofs = [("0xaa", [])] :=
  ⟨rfl,
    ((c3_single_account refLib (appOf oneStore)
      { Address := [0xAA], AccountNumber := 1, Coins := [{ Denom := "ATOM", Amount := 10 }] }
      rfl).2.2.2.1 [0xAA, 1, 10] rfl).1,
    by decide, ⟨_, rfl, by decide, by decide⟩⟩

/-- The worked example of the spec (section 8), on the reference library: two
accounts holding 10 and 5 ATOM; the leaf of the first sorts before the leaf
of the second, the root is the hash of the two leaves in that order, each
proof is the other leaf, and the total of ATOM is 15. -/
theorem worked_example :
    ∃ genState, exportedState refLib (appOf twoStore) = Outcome.returned (Except.ok genState) ∧
      bytesLess (toyHash [0xAA, 1, 10]) (toyHash [0xBB, 2, 5]) = true ∧
      genState.StateRoot = hexString (toyHash (toyHash [0xAA, 1, 10] ++ toyHash [0xBB, 2, 5])) ∧
      genState.Proofs =
        [("0xaa", [hexString (toyHash [0xBB, 2, 5])]), ("0xbb", [hexString (toyHash [0xAA, 1, 10])])] ∧
      genState.Assets = [("ATOM", 15)] :=
  ⟨_, rfl, by decide, by decide, by decide, by decide⟩

theorem treeBuilder_inv (L : Lib) (cfg : Config) (blocks : List ExportedAccount)
    (tree : MerkleTree) (h : TreeBuilder L cfg blocks = Except.ok tree) :
    ∃ hs, leafHashes L blocks = Except.ok hs ∧ hs ≠ [] := by
  unfold TreeBuilder at h
  cases hl : leafHashes L blocks with
  | error e => rw [hl] at h; simp at h
  | ok hs =>
    cases hs with
    | nil => rw [hl] at h; simp at h
    | cons x xs => exact ⟨_, rfl, by simp⟩

theorem decodeHexString_hexString (h : Bytes) : decodeHexString (hexString h) = some h := by
  unfold decodeHexString
  rw [hexString_data]
  exact decodeHex_hexChars h

theorem decodeAll_hexString (sibs : List Bytes) :
    decodeAll (sibs.map hexString) = some sibs := by
  induction sibs with
  | nil => rfl
  | cons h rest ih => simp only [List.map_cons, decodeAll, decodeHexString_hexString, ih]

/-- With pairwise distinct address texts, the entry under the address of
account `i` is the text of the siblings of proof `i`. -/
theorem lookup_of_distinct (L : Lib) (proofs : List Proof) (store : List Account)
    (hdistinct : (addrTexts L store).Nodup) (hlen : store.length ≤ proofs.length)
    (i : Nat) (hi : i < store.length) :
    ∃ p, proofs[i]? = some p ∧
      mapLookup (assignAll [] (proofEntries L proofs (store.map toExported)))
          (L.addrString (store.get ⟨i, hi⟩).Address) =
        some (p.Siblings.map hexString) := by
  obtain ⟨p, hp, he⟩ := proofEntries_at L proofs store i hi hlen
  refine ⟨p, hp, ?_⟩
  refine mapLookup_assignAll_last _ [] i
    (L.addrString (store.get ⟨i, hi⟩).Address, p.Siblings.map hexString) he ?_
  intro j e' hij he'
  obtain ⟨hj, hkey⟩ := proofEntries_key_at L proofs store j e' he'
  rw [hkey]
  intro heq
  have hi' : i < (addrTexts L store).length := by simpa [addrTexts] using hi
  have hj' : j < (addrTexts L store).length := by simpa [addrTexts] using hj
  have hinj := List.nodup_iff_injective_get.mp hdistinct
  have hfin : (⟨j, hj'⟩ : Fin (addrTexts L store).length) = ⟨i, hi'⟩ :=
    hinj (by simpa [addrTexts] using heq)
  have hji : j = i := Fin.mk.inj hfin
  omega

/-- Claim C4, as stated, fails when two accounts share an address: of three
accounts whose first and last share the address `0xaa`, the proof exported
under the address of the first account is the proof of the last one, and
folding the leaf hash of the first account with it does not give the
exported state root; the proof of the tree for the first leaf does. -/
theorem c4_counterexample :
    ∃ genState,
      exportedState refLib (appOf sharedAddrStore) = Outcome.returned (Except.ok genState) ∧
      genState.StateRoot = "0x9d" ∧
      refLib.addrString [0xAA] = "0xaa" ∧
      mapLookup genState.Proofs "0xaa" = some ["0xf0", "0x88"] ∧
      refLib.hashFunc (refLib.encode (toExported
        { Address := [0xAA], AccountNumber := 1, Coins := [{ Denom := "ATOM", Amount := 10 }] })) =
          [0xb8] ∧
      verifyExported refLib exportConfig [0xb8] ["0xf0", "0x88"] genState.StateRoot = false ∧
      verifyExported refLib exportConfig [0xb8] ["0xe8", "0x7b"] genState.StateRoot = true :=
  ⟨_, rfl, by decide, by decide, by decide, by decide, by decide, by decide⟩

/-- Claim C4, amended: for every account list with pairwise distinct address
texts, the export builds a snapshot whenever the list is non-empty and its
records encode, and in every snapshot it builds, for every account index
`i`, the proof exported under the address of account `i` is the text of the
siblings of proof `i`, and folding the hash of leaf `i` with those siblings
in order (bottom level first), each pair combined under the sorted pair
order of the export configuration (`SortSiblingPairs = true`), gives exactly
the root whose text is the exported state root: verification of the exported
proof against the exported state root succeeds. -/
theorem c4_round_trip (L : Lib) (app : App) (hdistinct : (addrTexts L app.store).Nodup) :
    (∀ hs, app.store ≠ [] → leafHashes L (app.store.map toExported) = Except.ok hs →
        ∃ genState, exportedState L app = Outcome.returned (Except.ok genState)) ∧
      ∀ genState, exportedState L app = Outcome.returned (Except.ok genState) →
        ∃ tree,
          TreeBuilder L exportConfig (collect L app.store).mtData = Except.ok tree ∧
          genState.StateRoot = hexString tree.Root ∧
          decodeHexString genState.StateRoot = some tree.Root ∧
          ∀ i (hi : i < app.store.length), ∃ bytes p,
            LeafEncoder L (toExported (app.store.get ⟨i, hi⟩)) = Except.ok bytes ∧
            tree.Proofs[i]? = some p ∧
            mapLookup genState.Proofs (L.addrString (app.store.get ⟨i, hi⟩).Address) =
              some (p.Siblings.map hexString) ∧
            decodeAll (p.Siblings.map hexString) = some p.Siblings ∧
            verifyFold L exportConfig (L.hashFunc bytes) p.Siblings = tree.Root ∧
            verifyExported L exportConfig (L.hashFunc bytes) (p.Siblings.map hexString)
              genState.StateRoot = true := by
  constructor
  · intro hs hne henc
    obtain ⟨hlen, _⟩ := leafHashes_spec L (app.store.map toExported) hs henc
    rw [List.length_map] at hlen
    have hsne : hs ≠ [] := by
      intro h0
      rw [h0] at hlen
      exact hne (List.length_eq_zero.mp hlen.symm)
    obtain ⟨tree, ht, hplen, _⟩ := treeBuilder_ok L exportConfig _ hs henc hsne
    obtain ⟨genState, hg, _, _⟩ := genStateOf_returns L (TreeBuilder L) app tree ht (by omega)
    exact ⟨genState, hg⟩
  · intro genState hret
    obtain ⟨tree, ht, hlen, hproofs, hroot⟩ := genStateOf_proofs L (TreeBuilder L) app genState hret
    obtain ⟨hs, henc, hsne⟩ := treeBuilder_inv L exportConfig _ tree ht
    obtain ⟨hslen, hleaf⟩ := leafHashes_spec L (app.store.map toExported) hs henc
    rw [List.length_map] at hslen
    obtain ⟨tree', ht', _, hfold⟩ := treeBuilder_ok L exportConfig _ hs henc hsne
    have htree : tree' = tree := by
      rw [ht] at ht'
      exact (Except.ok.inj ht').symm
    subst htree
    have hrootdec : decodeHexString genState.StateRoot = some tree'.Root := by
      rw [hroot]
      exact decodeHexString_hexString _
    refine ⟨tree', by rw [collect_eq]; exact ht, hroot, hrootdec, ?_⟩
    intro i hi
    have hi' : i < hs.length := by omega
    obtain ⟨p, hp, hv⟩ := hfold rfl i hi'
    obtain ⟨bytes, hb1, hb2⟩ := hleaf i (by simpa using hi)
    have hget : hs.get ⟨i, hi'⟩ = L.hashFunc bytes := by
      rw [List.getElem?_eq_getElem hi'] at hb2
      exact Option.some.inj hb2
    obtain ⟨p', hp', hlook⟩ := lookup_of_distinct L tree'.Proofs app.store hdistinct hlen i hi
    have hpp : p' = p := by
      rw [hp] at hp'
      exact (Option.some.inj hp').symm
    subst hpp
    have hv' : verifyFold L exportConfig (L.hashFunc bytes) p'.Siblings = tree'.Root := by
      rw [← hget]
      exact hv
    refine ⟨bytes, p', by simpa using hb1, hp, by rw [hproofs]; exact hlook,
      decodeAll_hexString _, hv', ?_⟩
    unfold verifyExported
    rw [decodeAll_hexString, hrootdec]
    simp only [hv', decide_True]

/-- Claim C4, amended, on three accounts with distinct addresses: the export
builds a snapshot, and the proof exported under the address of the first
account verifies its leaf against the exported state root. -/
theorem c4_round_trip_witness :
    (addrTexts refLib (appOf threeStore).store).Nodup ∧
      (∃ genState, exportedState refLib (appOf threeStore) =
          Outcome.returned (Except.ok genState) ∧
        genState.StateRoot = "0x8a" ∧
        mapLookup genState.Proofs "0xaa" = some ["0xe8", "0xd8"] ∧
        verifyExported refLib exportConfig [0xb8] ["0xe8", "0xd8"] genState.StateRoot = true) ∧
      ∃ genState, exportedState refLib (appOf threeStore) = Outcome.returned (Except.ok genState) :=
  ⟨by decide, ⟨_, rfl, by decide, by decide, by decide⟩,
    (c4_round_trip refLib (appOf threeStore) (by decide)).1 [[0xb8], [0xe8], [0xbc]]
      (by decide) rfl⟩

end NodeDump
